import Mathlib

/-!
Verification development for the register-allocation core of the `tracc`
compiler (C-to-AArch64).  The data model and the algorithms below are a
shallow embedding of the Rust sources:

  * `src/intermediate/analysis/lifetimes.rs` — lifetime analysis,
    happens-before oracle, intersection and collision detection;
  * `src/allocators/registers.rs` — allocator hints, the per-block linear
    allocator (`linear_alloc_block`) and the driver (`alloc_registers`).

Rust `HashMap`/`HashSet` values are embedded as functions into `Option`
(respectively `Bool`), or as lists when the code iterates over them.
Rust panics (failed `assert!`/index panics) and the release-mode
`unwrap_unchecked` calls are embedded as `Except.error`.

A few items referenced by the sources live in modules that are not part of
the source snapshot (`intermediate/mod.rs`, `intermediate/analysis/mod.rs`,
`allocators/flag.rs`, `asmgen/assembly.rs`).  Each such definition carries a
doc comment starting with `Modelled from the spec:` and follows the
specification text for the missing item.
-/

namespace Tracc

/-- Modelled from the spec: §3 — a `Binding` is an opaque SSA value
identifier (the defining `intermediate/mod.rs` is not in the snapshot;
its tests show `Binding(usize)`). -/
abbrev Binding := Nat

/-- Modelled from the spec: §3 — `BlockBinding` identifies a basic block. -/
abbrev BlockBinding := Nat

/-- Modelled from the spec: §3 — conditions carried by `Cmp` values and the
`stores_condition` map (the defining `asmgen/assembly.rs` is missing). -/
inductive Condition where
  | eqc | nec | ltc | lec | gtc | gec
  deriving DecidableEq, Repr

/-- Modelled from the spec: §3 — `RegisterID`, tagged variant
`Zero | Gpr(index) | Stack` (the defining `asmgen/assembly.rs` is missing;
variant names follow their uses in `registers.rs` and `codegen/mod.rs`). -/
inductive RegisterID where
  | ZeroRegister
  | GeneralPurpose (index : Nat)
  | StackPointer
  deriving DecidableEq, Repr

/-- Modelled from the spec: §3 — operands that are either a binding or a
constant (`CouldBeConstant`, used by arithmetic values in `fold.rs`). -/
inductive CouldBeConstant where
  | binding (b : Binding)
  | constant (k : Int)
  deriving DecidableEq, Repr

/-- Modelled from the spec: §3 — one φ-node descriptor `(from-block, value)`
(shape as used by `registers.rs`: `descriptor.value`). -/
structure PhiDescriptor where
  value : Binding
  block_from : BlockBinding
  deriving DecidableEq, Repr

/-- Modelled from the spec: §3 — the `Value` enum of assigned right-hand
sides (the defining `intermediate/mod.rs` is missing; the variant set
follows §3 and the uses in `fold.rs` and the lifetime tests). -/
inductive Value where
  | Constant (k : Int)
  | Phi (nodes : List PhiDescriptor)
  | Allocate (size : Nat)
  | Call (args : List Binding)
  | Cmp (cond : Condition) (lhs : Binding) (rhs : CouldBeConstant)
  | Load (mem_binding : Binding) (byte_size : Nat)
  | Add (lhs : Binding) (rhs : CouldBeConstant)
  | Subtract (lhs : Binding) (rhs : CouldBeConstant)
  | Multiply (lhs : Binding) (rhs : CouldBeConstant)
  | Negate (binding : Binding)
  | FlipBits (binding : Binding)
  | Binding (b : Binding)
  deriving DecidableEq, Repr

/-- Modelled from the spec: §3 — statements: `Assign(index, value)` and
`Store{mem, value, size}`. -/
inductive Statement where
  | Assign (index : Binding) (value : Value)
  | Store (mem_binding : Binding) (binding : Binding) (byte_size : Nat)
  deriving DecidableEq, Repr

/-- Modelled from the spec: §3 — branches ending a block. -/
inductive Branch where
  | Unconditional (target : BlockBinding)
  | Conditional (flag : Binding) (target_true : BlockBinding) (target_false : BlockBinding)
  deriving DecidableEq, Repr

/-- Modelled from the spec: §3 — `BlockEnd`: a branch or a `Return`. -/
inductive BlockEnd where
  | branch (b : Branch)
  | ret (b : Binding)
  deriving DecidableEq, Repr

/-- Modelled from the spec: §3/§6 — a basic block: statements plus an end. -/
structure BasicBlock where
  statements : List Statement
  blockEnd : BlockEnd
  deriving DecidableEq, Repr

/-- Modelled from the spec: §6 — the `IR`: a vector of basic blocks, forward
and backwards adjacency maps keyed by block, and function entry/endpoint
tables (the defining `intermediate/mod.rs` is missing). -/
structure IR where
  code : List BasicBlock
  forward_map : List (BlockBinding × List BlockBinding)
  backwards_map : List (BlockBinding × List BlockBinding)
  function_entrypoints : List BlockBinding
  function_endpoints : List (BlockBinding × Nat)
  deriving DecidableEq, Repr

/-- Lookup in an adjacency map; a missing key has no successors. -/
def adjLookup (m : List (BlockBinding × List BlockBinding)) (b : BlockBinding) :
    List BlockBinding :=
  match m.find? (fun p => p.1 = b) with
  | some p => p.2
  | none => []

/-- Update a function-as-map at one key. -/
def updFn {α β : Type} [DecidableEq α] (f : α → β) (a : α) (v : β) : α → β :=
  fun x => if x = a then v else f x

/-- Block address `(block, statement index)` — from `lifetimes.rs`. -/
structure BlockAddress where
  block : BlockBinding
  statement : Nat
  deriving DecidableEq, Repr

/-- A lifetime: one start address and the list of end addresses — from
`lifetimes.rs` (`Lifetime`). -/
structure Lifetime where
  attached_binding : Binding
  start : BlockAddress
  ends : List BlockAddress
  deriving DecidableEq, Repr

/-- Modelled from the spec: §4.1 step 2 — the operand bindings referenced by
a `Value` (the `BindingUsage`/`visit_value_bindings` machinery lives in the
missing `intermediate/analysis/mod.rs`). -/
def valueUsedBindings : Value → List Binding
  | .Constant _ => []
  | .Phi nodes => nodes.map (·.value)
  | .Allocate _ => []
  | .Call args => args
  | .Cmp _ lhs rhs =>
    lhs :: (match rhs with | .binding b => [b] | .constant _ => [])
  | .Load mem _ => [mem]
  | .Add lhs rhs => lhs :: (match rhs with | .binding b => [b] | .constant _ => [])
  | .Subtract lhs rhs => lhs :: (match rhs with | .binding b => [b] | .constant _ => [])
  | .Multiply lhs rhs => lhs :: (match rhs with | .binding b => [b] | .constant _ => [])
  | .Negate b => [b]
  | .FlipBits b => [b]
  | .Binding b => [b]

/-- Modelled from the spec: §4.1 step 2 — bindings referenced by a
statement (`visit_value_bindings`): operands of the assigned value, and both
operands of a `Store`. -/
def stmtUsedBindings : Statement → List Binding
  | .Assign _ v => valueUsedBindings v
  | .Store mem b _ => [mem, b]

/-- Modelled from the spec: §4.1 — breadth-first collection of the blocks
reachable from `frontier` through the given adjacency map (used for the
happens-before ancestor query over `backwards_map` and for the end-pruning
walk; the iterators `antecessors`/`predecessors` live in the missing
`intermediate/analysis/mod.rs`).  `fuel` bounds the walk. -/
def bfsReach (m : List (BlockBinding × List BlockBinding)) :
    Nat → List BlockBinding → List BlockBinding → List BlockBinding
  | 0, _, visited => visited
  | _ + 1, [], visited => visited
  | fuel + 1, f :: frontier, visited =>
    if f ∈ visited then bfsReach m fuel frontier visited
    else bfsReach m fuel (frontier ++ adjLookup m f) (f :: visited)

/-- Fuel that is sufficient for any breadth-first walk over `m`. -/
def bfsFuel (m : List (BlockBinding × List BlockBinding)) : Nat :=
  2 * (m.foldl (fun acc p => acc + p.2.length) 0) + 2 * m.length + 2

/-- Modelled from the spec: §4.1 — `antecessors(ir, b)`: the blocks from
which `b` is reachable through one or more CFG edges (reverse BFS over the
backwards map).  A block is its own antecessor exactly when it lies on a
cycle, which is what the source test
`collide_different_blocks` exercises. -/
def antecessors (ir : IR) (b : BlockBinding) : List BlockBinding :=
  bfsReach ir.backwards_map (bfsFuel ir.backwards_map) (adjLookup ir.backwards_map b) []

/-- Modelled from the spec: §4.1 step 3 — the strict successors of a block
(forward walk over the forward map, excluding the starting block unless it
is reachable from itself). -/
def strictSuccessors (ir : IR) (b : BlockBinding) : List BlockBinding :=
  bfsReach ir.forward_map (bfsFuel ir.forward_map) (adjLookup ir.forward_map b) []

/-- From `lifetimes.rs` (`BlockAddress::happens_before`): A happens before B
if it is earlier in the same block, or A's block is an antecessor of B's. -/
def happensBefore (ir : IR) (a b : BlockAddress) : Bool :=
  (a.block == b.block && a.statement < b.statement) || a.block ∈ antecessors ir b.block

/-- From `lifetimes.rs` (`get_defs`): every `Assign` statement's binding with
its address, in program order. -/
def getDefs (ir : IR) : List (Binding × BlockAddress) :=
  (ir.code.enum.flatMap fun (blockIdx, block) =>
    block.statements.enum.filterMap fun (stmtIdx, stmt) =>
      match stmt with
      | .Assign index _ => some (index, ⟨blockIdx, stmtIdx⟩)
      | _ => none)

/-- Insert-or-replace for an association list keyed by the first component. -/
def assocInsert {α β : Type} [DecidableEq α] (l : List (α × β)) (a : α) (b : β) :
    List (α × β) :=
  match l with
  | [] => [(a, b)]
  | (a', b') :: rest => if a' = a then (a, b) :: rest else (a', b') :: assocInsert rest a b

/-- Lookup in an association list. -/
def assocFind {α β : Type} [DecidableEq α] (l : List (α × β)) (a : α) : Option β :=
  match l.find? (fun p => p.1 = a) with
  | some p => some p.2
  | none => none

/-- From `lifetimes.rs` (`get_lifetime_ends` step 1): for every binding, the
last statement index at which it is used per block; uses in a `Conditional`
flag or a `Return` count at index `statements.len()`. -/
def allBlockEnds (ir : IR) : List (Binding × List (BlockBinding × Nat)) :=
  ir.code.enum.foldl
    (fun acc (blockIdx, block) =>
      let acc := block.statements.enum.foldl
        (fun acc (stmtIdx, stmt) =>
          (stmtUsedBindings stmt).foldl
            (fun acc dep =>
              let inner := (assocFind acc dep).getD []
              assocInsert acc dep (assocInsert inner blockIdx stmtIdx))
            acc)
        acc
      match block.blockEnd with
      | .branch (.Conditional flag _ _) =>
        let inner := (assocFind acc flag).getD []
        assocInsert acc flag (assocInsert inner blockIdx block.statements.length)
      | .ret r =>
        let inner := (assocFind acc r).getD []
        assocInsert acc r (assocInsert inner blockIdx block.statements.length)
      | _ => acc)
    []

/-- From `lifetimes.rs` (`get_lifetime_ends` step 2): drop every candidate
block that has another candidate among its strict successors. -/
def pruneDieMap (ir : IR) (dieMap : List (BlockBinding × Nat)) :
    List (BlockBinding × Nat) :=
  dieMap.filter fun (k, _) =>
    ! ((strictSuccessors ir k).any fun child => (assocFind dieMap child).isSome)

/-- From `lifetimes.rs` (`get_lifetime_ends`): per binding, the pruned death
addresses. -/
def getLifetimeEnds (ir : IR) : List (Binding × List BlockAddress) :=
  (allBlockEnds ir).map fun (binding, dieMap) =>
    (binding, (pruneDieMap ir dieMap).map fun (block, statement) => ⟨block, statement⟩)

/-- From `lifetimes.rs` (`compute_lifetimes`): one lifetime per defined
binding; a binding that is never used gets an empty `ends` list. -/
def computeLifetimes (ir : IR) : List Lifetime :=
  (getDefs ir).map fun (key, def_) =>
    match assocFind (getLifetimeEnds ir) key with
    | some die => { attached_binding := key, start := def_, ends := die }
    | none => { attached_binding := key, start := def_, ends := [] }

/-- From `lifetimes.rs` (`Lifetime::find_intersections`): the pairs
`(start, end)` witnessing an overlap of two lifetimes.  The function
asserts that both lifetimes have at least one end
(`assert!(!self.ends.is_empty() && !other.ends.is_empty())`); the panic is
embedded as an error. -/
def findIntersections (self other : Lifetime) (ir : IR) :
    Except String (List (BlockAddress × BlockAddress)) :=
  if self.ends.isEmpty || other.ends.isEmpty then
    .error "everything comes to an end :("
  else if happensBefore ir self.start other.start then
    .ok ((self.ends.filter fun e => happensBefore ir other.start e).map
      fun e => (self.start, e))
  else if happensBefore ir other.start self.start then
    .ok ((other.ends.filter fun e => happensBefore ir self.start e).map
      fun e => (other.start, e))
  else
    .ok []

/-- From `lifetimes.rs`
(`compute_lifetime_collisions_with_locations`): for every lifetime, the
other bindings with a non-empty intersection list, with locations. -/
def collisionsWithLocations (ir : IR) (lifetimes : List Lifetime) :
    Except String (List (Binding × List (Binding × List (BlockAddress × BlockAddress)))) :=
  lifetimes.mapM fun lifetime => do
    let others := lifetimes.filter fun l => l.attached_binding ≠ lifetime.attached_binding
    let locations ← others.foldlM
      (fun acc l => do
        let intersections ← findIntersections lifetime l ir
        if intersections.isEmpty then pure acc
        else pure (acc ++ [(l.attached_binding, intersections)]))
      []
    pure (lifetime.attached_binding, locations)

/-- From `IR::get_statement`: the statement at an address, when the address
is in range. -/
def getStatement (ir : IR) (addr : BlockAddress) : Option Statement :=
  match ir.code.get? addr.block with
  | some block => block.statements.get? addr.statement
  | none => none

/-- From `lifetimes.rs` (`compute_lifetime_collisions`): drop intersection
locations that sit at a φ-assignment mentioning both participants, then
drop collisions whose location list became empty. -/
def computeLifetimeCollisions (ir : IR) (lifetimes : List Lifetime) :
    Except String (List (Binding × List Binding)) := do
  let withLocations ← collisionsWithLocations ir lifetimes
  pure (withLocations.map fun (k, collisions) =>
    (k, collisions.filterMap fun (collision, locations) =>
      let locations := locations.filter fun (_, e) =>
        match getStatement ir e with
        | some (.Assign _ (.Phi nodes)) =>
          ! ((nodes.any fun desc => desc.value = k) &&
             (nodes.any fun desc => desc.value = collision))
        | _ => true
      if locations.isEmpty then none else some collision))

end Tracc

namespace Tracc

/-- Set-style insert for a list representing a Rust `HashSet`. -/
def setInsert (l : List Binding) (b : Binding) : List Binding :=
  if b ∈ l then l else l ++ [b]

/-- Set-style union (`HashSet::extend`). -/
def setExtend (l : List Binding) (other : List Binding) : List Binding :=
  other.foldl setInsert l

/-- Subset test on lists-as-sets (`HashSet::is_subset`). -/
def setSubset (l other : List Binding) : Bool :=
  l.all (· ∈ other)

/-- From `registers.rs` (`AllocatorHints`): the hint sets collected by
`make_allocator_hints`.  Sets are lists; the two φ maps are functions to an
optional operand set. -/
structure AllocatorHints where
  in_memory : List Binding
  used_in_return : List Binding
  returned_from_call : List Binding
  from_phi_node : Binding → Option (List Binding)
  is_phi_node_with : Binding → Option (List Binding)
  zeroes : List Binding

/-- From `registers.rs` (`HintBuilder::add_phi_node`): merge an arriving φ
operand set into `from_phi_node[target]`.  The entry is first removed; it is
reinserted in the `None` case and in the subset case, the hint is locked on
a discrepant arrival, and nothing happens once locked.  Returns the updated
map and locked flag. -/
def addPhiNode (fromPhiNode : Binding → Option (List Binding)) (locked : Bool)
    (target : Binding) (others : List Binding) :
    (Binding → Option (List Binding)) × Bool :=
  if locked then (fromPhiNode, locked)
  else
    match fromPhiNode target with
    | some alreadyIn =>
      let fromPhiNode := updFn fromPhiNode target none
      if setSubset alreadyIn others then
        (updFn fromPhiNode target (some (setExtend alreadyIn others)), locked)
      else if ! setSubset others alreadyIn then
        (fromPhiNode, true)
      else
        (fromPhiNode, locked)
    | none => (updFn fromPhiNode target (some others), locked)

/-- State threaded through `make_allocator_hints`: the hints under
construction plus each binding's `HintBuilder::phi_nodes_locked` flag. -/
structure HintState where
  hints : AllocatorHints
  locked : Binding → Bool

/-- From `registers.rs` (`make_allocator_hints`): process one statement. -/
def hintStatement (st : HintState) (stmt : Statement) : HintState :=
  match stmt with
  | .Assign index value =>
    match value with
    | .Constant 0 =>
      { st with hints := { st.hints with zeroes := setInsert st.hints.zeroes index } }
    | .Phi nodes =>
      let otherBindings := (nodes.map (·.value)).foldl setInsert []
      let st := nodes.foldl
        (fun st desc =>
          let node := desc.value
          let all := otherBindings.filter (· ≠ node)
          { st with hints := { st.hints with
              is_phi_node_with := updFn st.hints.is_phi_node_with node
                (some (setExtend ((st.hints.is_phi_node_with node).getD []) all)) } })
        st
      let (fpn, lockedIdx) :=
        addPhiNode st.hints.from_phi_node (st.locked index) index otherBindings
      { hints := { st.hints with from_phi_node := fpn },
        locked := updFn st.locked index lockedIdx }
    | .Allocate _ =>
      { st with hints := { st.hints with in_memory := setInsert st.hints.in_memory index } }
    | .Call _ =>
      { st with hints := { st.hints with
          returned_from_call := setInsert st.hints.returned_from_call index } }
    | _ => st
  | .Store _ _ _ => st

/-- From `registers.rs` (`make_allocator_hints`): single pass over every
statement and block end. -/
def makeAllocatorHints (ir : IR) : AllocatorHints :=
  (ir.code.foldl
    (fun (st : HintState) (block : BasicBlock) =>
      let st := block.statements.foldl hintStatement st
      match block.blockEnd with
      | .ret binding =>
        { st with hints := { st.hints with
            used_in_return := setInsert st.hints.used_in_return binding } }
      | _ => st)
    { hints := { in_memory := [], used_in_return := [], returned_from_call := [],
                 from_phi_node := fun _ => none, is_phi_node_with := fun _ => none,
                 zeroes := [] },
      locked := fun _ => false }).hints

/-- From `registers.rs` (`CodegenHints`): the allocator output.  Sets are
membership functions, maps are functions into `Option`. -/
structure CodegenHints where
  need_move_from_r0 : Binding → Bool
  callee_saved_per_function : List (List RegisterID)
  need_move_to_return_reg : Binding → Bool
  save_upon_call : Binding → Bool
  completely_spilled : Binding → Bool
  stores_condition : Binding → Option Condition
  registers : Binding → Option RegisterID

/-- The empty `CodegenHints` (`CodegenHints::default`). -/
def CodegenHints.empty : CodegenHints :=
  { need_move_from_r0 := fun _ => false
    callee_saved_per_function := []
    need_move_to_return_reg := fun _ => false
    save_upon_call := fun _ => false
    completely_spilled := fun _ => false
    stores_condition := fun _ => none
    registers := fun _ => none }

/-- Modelled from the spec: §4.4 — `flag::get_used_flags` (the module
`allocators/flag.rs` is missing): a binding stores a condition when it is
the flag of a `Conditional` block end, it is defined by a `Cmp` that is the
last statement of that same block, and it has no other consumer (no
statement operand use, no `Return` use, and no other conditional use). -/
def getUsedFlags (ir : IR) : Binding → Option Condition := fun b =>
  let stmtUses := ir.code.foldl
    (fun acc block => acc + block.statements.countP (fun s => b ∈ stmtUsedBindings s)) 0
  let retUses := ir.code.countP fun block =>
    match block.blockEnd with | .ret r => r = b | _ => false
  let condUses := ir.code.countP fun block =>
    match block.blockEnd with | .branch (.Conditional f _ _) => f = b | _ => false
  if stmtUses = 0 && retUses = 0 && condUses = 1 then
    ir.code.findSome? fun block =>
      match block.blockEnd with
      | .branch (.Conditional f _ _) =>
        if f = b then
          match block.statements.getLast? with
          | some (.Assign i (.Cmp c _ _)) => if i = b then some c else none
          | _ => none
        else none
      | _ => none
  else none

/-- Per-block lifetime summary used by the allocator driver
(`make_sorted_lifetimes` output shape, see `alloc_registers`). -/
structure BlockLifetimes where
  block_index : Nat
  ordered_by_start : List Binding
  binding_starts : Binding → Nat
  binding_ends : Binding → Nat

/-- Last statement index of a block at which `b` is used locally; a use in
the block end counts at `statements.length`. -/
def lastLocalUse (block : BasicBlock) (b : Binding) : Option Nat :=
  let stmtUses := block.statements.enum.filterMap fun (j, s) =>
    if b ∈ stmtUsedBindings s then some j else none
  let endUses :=
    match block.blockEnd with
    | .branch (.Conditional f _ _) => if f = b then [block.statements.length] else []
    | .ret r => if r = b then [block.statements.length] else []
    | _ => []
  (stmtUses ++ endUses).max?

/-- Modelled from the spec: §4.5 inputs — `make_sorted_lifetimes` (the
defining `intermediate/analysis/mod.rs` is missing): per block, the bindings
defined in it sorted by definition statement index, each with its start
(definition index) and end (last local use index; block-end uses count at
`statements.len()`; a locally unused binding dies at its definition). -/
def makeSortedLifetimes (ir : IR) : List BlockLifetimes :=
  ir.code.enum.map fun (p : Nat × BasicBlock) =>
    let blockIdx := p.1
    let block := p.2
    let defs := block.statements.enum.filterMap fun (j, s) =>
      match s with
      | .Assign b _ => some (b, j)
      | _ => none
    { block_index := blockIdx
      ordered_by_start := defs.map (·.1)
      binding_starts := fun b => (assocFind defs b).getD 0
      binding_ends := fun b =>
        (lastLocalUse block b).getD ((assocFind defs b).getD 0) }

/-- Modelled from the spec: §4.1 — `statements_with_addresses` (missing
`intermediate/analysis/mod.rs`): every statement with its address. -/
def statementsWithAddresses (ir : IR) : List (Statement × BlockAddress) :=
  ir.code.enum.flatMap fun (blockIdx, block) =>
    block.statements.enum.map fun (stmtIdx, stmt) => (stmt, ⟨blockIdx, stmtIdx⟩)

/-- From `registers.rs` (`alloc_registers`): the addresses of `Call`
assignments. -/
def callAddresses (ir : IR) : List BlockAddress :=
  (statementsWithAddresses ir).filterMap fun (stmt, addr) =>
    match stmt with
    | .Assign _ (.Call _) => some addr
    | _ => none

/-- The default (out-of-range) block-lifetime record. -/
def BlockLifetimes.empty : BlockLifetimes :=
  { block_index := 0, ordered_by_start := [], binding_starts := fun _ => 0,
    binding_ends := fun _ => 0 }

/-- From `registers.rs` (`alloc_registers`): bindings whose per-block
lifetime strictly spans a `Call` statement. -/
def usedThroughCallList (ir : IR) : List Binding :=
  (callAddresses ir).foldl
    (fun acc addr =>
      let bl := (makeSortedLifetimes ir).getD addr.block BlockLifetimes.empty
      acc ++ bl.ordered_by_start.filter fun b =>
        bl.binding_starts b < addr.statement && addr.statement < bl.binding_ends b)
    []

end Tracc

namespace Tracc

/-- Use-counter map for registers (`used: HashMap<RegisterID, usize>`). -/
abbrev UsedMap := RegisterID → Option Nat

/-- φ hint maps threaded through the allocator. -/
abbrev PhiMap := Binding → Option (List Binding)

/-- Count stored for a register, zero when absent. -/
def cnt (o : Option Nat) : Nat := o.getD 0

/-- From `registers.rs` (`linear_alloc_block`, expire loop body): release the
register of each expired binding — decrement its use count, removing the
entry when the count was one.  A missing register assignment or counter
entry is a Rust index panic, embedded as an error. -/
def releaseRegs (regs : Binding → Option RegisterID) :
    List Binding → UsedMap → Except String UsedMap
  | [], used => .ok used
  | a :: rest, used =>
    match regs a with
    | none => .error "no register recorded for an expired binding"
    | some r =>
      match used r with
      | none => .error "no use counter for an expired register"
      | some n =>
        if n = 1 then releaseRegs regs rest (updFn used r none)
        else releaseRegs regs rest (updFn used r (some (n - 1)))

/-- From `registers.rs` (`linear_alloc_block`, expire phase): drop from
`active` the prefix of bindings whose end is not after `start` (the source
drains up to the first position with `ends[other] > start`). -/
def expireActive (regs : Binding → Option RegisterID) (ends : Binding → Nat)
    (start : Nat) (active : List Binding) (used : UsedMap) :
    Except String (List Binding × UsedMap) :=
  match releaseRegs regs (active.takeWhile fun a => ! decide (start < ends a)) used with
  | .error e => .error e
  | .ok used => .ok (active.dropWhile (fun a => ! decide (start < ends a)), used)

/-- From `registers.rs` (`ActiveBindingSet::add`): insert keeping `active`
sorted ascending by lifetime end. -/
def activeInsert (ends : Binding → Nat) : List Binding → Binding → List Binding
  | [], b => [b]
  | x :: xs, b =>
    if ends b < ends x then b :: x :: xs else x :: activeInsert ends xs b

/-- Remove the first occurrence (`ActiveBindingSet::remove`). -/
def activeRemove : List Binding → Binding → List Binding
  | [], _ => []
  | x :: xs, b => if x = b then xs else x :: activeRemove xs b

/-- Registers of the given bindings that are already allocated
(`flat_map(|b| registers.get(b))`). -/
def collectAllocs (regs : Binding → Option RegisterID) (l : List Binding) :
    List RegisterID :=
  l.filterMap regs

/-- From `registers.rs` (`linear_alloc_block`, φ-destination hint): all
operands must be allocated, and to a single register.  The two
`debug_assert_eq!` failures (and the release-mode unchecked unwraps behind
them) are embedded as errors. -/
def phiNodesPhase (regs : Binding → Option RegisterID) (pn pe : PhiMap)
    (b : Binding) :
    Except String (Option RegisterID × PhiMap × PhiMap) :=
  match pn b with
  | some nodes =>
    let allocs := collectAllocs regs nodes
    if allocs.length = nodes.length then
      match allocs.dedup with
      | [r] => .ok (some r, updFn pn b none, pe)
      | _ => .error "All allocated phi nodes must be on the same register"
    else .error "All phi nodes must have been previously allocated"
  | none => .ok (none, pn, pe)

/-- From `registers.rs` (`linear_alloc_block`, φ hints): first try the
φ-edge entry (removed on lookup; when none of the edges is allocated the
search falls through to the φ-destination hint), then the φ-node entry. -/
def phiPhase (regs : Binding → Option RegisterID) (pn pe : PhiMap) (b : Binding) :
    Except String (Option RegisterID × PhiMap × PhiMap) :=
  match pe b with
  | some edges =>
    let pe := updFn pe b none
    match (collectAllocs regs edges).dedup with
    | [] => phiNodesPhase regs pn pe b
    | [r] => .ok (some r, pn, pe)
    | _ => .error "Expecting all allocated edges to be in the same place"
  | none => phiNodesPhase regs pn pe b

/-- Rust `a..b` over register indices, mapped through `RegisterID::from`. -/
def regRange (a b : Nat) : List RegisterID :=
  (List.range' a (b - a)).map RegisterID.GeneralPurpose

/-- First register of `l` that has no entry in `used`
(`find(|reg| !used.contains_key(reg))`). -/
def findFree (used : UsedMap) (l : List RegisterID) : Option RegisterID :=
  l.find? fun r => (used r).isNone

/-- Append to the per-function callee-saved list
(`callee_saved_per_function[fi].push(r)`). -/
def pushCalleeSaved (l : List (List RegisterID)) (fi : Nat) (r : RegisterID) :
    List (List RegisterID) :=
  l.set fi ((l.getD fi []) ++ [r])

/-- Set-style membership update for a `Binding → Bool` set. -/
def setTrue (f : Binding → Bool) (b : Binding) : Binding → Bool :=
  fun x => if x = b then true else f x

/-- From `registers.rs` (`linear_alloc_block`, free register search): a
binding used through a call prefers a free callee-saved register r19–r28
(recorded per function), falling back to the caller-saved ranges with a
`save_upon_call` note; other bindings search r0–r14, r16–r30, then r9–r15. -/
def freeSearch (cg : CodegenHints) (utc : List Binding) (used : UsedMap)
    (b : Binding) (fi : Nat) : Option RegisterID × CodegenHints :=
  if b ∈ utc then
    match findFree used (regRange 19 29) with
    | some r =>
      (some r, { cg with callee_saved_per_function :=
          pushCalleeSaved cg.callee_saved_per_function fi r })
    | none =>
      match findFree used (regRange 0 15 ++ regRange 16 31) with
      | some r => (some r, { cg with save_upon_call := setTrue cg.save_upon_call b })
      | none => (none, cg)
  else
    (findFree used (regRange 0 15 ++ regRange 16 31 ++ regRange 9 16), cg)

/-- Allocator state threaded across blocks: the accumulated `CodegenHints`
plus the mutable φ hint maps. -/
structure AllocSt where
  cg : CodegenHints
  phiNodes : PhiMap
  phiEdges : PhiMap

/-- Parameters of one `linear_alloc_block` invocation (the unused
`used_in_return` parameter of the source function is omitted). -/
structure BlockCtx where
  starts : Binding → Nat
  ends : Binding → Nat
  utc : List Binding
  fi : Nat

/-- From `registers.rs` (`linear_alloc_block`, spill-to-acquire): when no
register was found, evict the longest-lived active binding if it outlives
`b`, taking its register and bumping the freed register's use counter
(`*used.entry(reg).or_default() += 1`, as written in the source). -/
def evictPhase (ctx : BlockCtx) (cg : CodegenHints)
    (unusedReg : Option RegisterID) (active : List Binding) (used : UsedMap)
    (b : Binding) :
    Except String (Option RegisterID × CodegenHints × List Binding × UsedMap) :=
  match unusedReg with
  | some r => .ok (some r, cg, active, used)
  | none =>
    match active.getLast? with
    | none => .error "no active binding available to spill"
    | some longest =>
      if ctx.ends b < ctx.ends longest then
        match cg.registers longest with
        | none => .error "spilled binding had no register"
        | some reg =>
          .ok (some reg,
            { cg with
              completely_spilled := setTrue cg.completely_spilled longest,
              registers := updFn cg.registers longest (some .StackPointer) },
            activeRemove active longest,
            updFn used reg (some (cnt (used reg) + 1)))
      else .ok (none, cg, active, used)

/-- From `registers.rs` (`linear_alloc_block`, commit): run the spill phase,
then either commit the found register — guarded by
`assert!(used.insert(register, 1).is_none())` — or spill `b`. -/
def evictAndCommit (ctx : BlockCtx) (cg : CodegenHints) (pn pe : PhiMap)
    (unusedReg : Option RegisterID) (active : List Binding) (used : UsedMap)
    (b : Binding) : Except String (AllocSt × List Binding × UsedMap) :=
  match evictPhase ctx cg unusedReg active used b with
  | .error e => .error e
  | .ok (found, cg, active, used) =>
    match found with
    | some register =>
      if (used register).isSome then
        .error "this register should not be in use"
      else
        .ok ({ cg := { cg with registers := updFn cg.registers b (some register) },
               phiNodes := pn, phiEdges := pe },
             activeInsert ctx.ends active b,
             updFn used register (some 1))
    | none =>
      .ok ({ cg := { cg with
               completely_spilled := setTrue cg.completely_spilled b,
               registers := updFn cg.registers b (some .StackPointer) },
             phiNodes := pn, phiEdges := pe },
           active, used)

/-- From `registers.rs` (`linear_alloc_block`): the register found so far
(`phi_alloc` or the free search), followed by spill-to-acquire and the
commit. -/
def commitPhase (ctx : BlockCtx) (cg : CodegenHints) (pn pe : PhiMap)
    (phiAlloc : Option RegisterID) (active : List Binding) (used : UsedMap)
    (b : Binding) : Except String (AllocSt × List Binding × UsedMap) :=
  match phiAlloc with
  | some r => evictAndCommit ctx cg pn pe (some r) active used b
  | none =>
    match freeSearch cg ctx.utc used b ctx.fi with
    | (oreg, cg) => evictAndCommit ctx cg pn pe oreg active used b

/-- From `registers.rs` (`linear_alloc_block`, loop body): expire old
intervals, skip flag-only bindings, keep already-allocated bindings, then
try φ hints, the free search, and spilling. -/
def stepBinding (ctx : BlockCtx) (st : AllocSt) (active : List Binding)
    (used : UsedMap) (b : Binding) :
    Except String (AllocSt × List Binding × UsedMap) :=
  match expireActive st.cg.registers ctx.ends (ctx.starts b) active used with
  | .error e => .error e
  | .ok (active, used) =>
    if (st.cg.stores_condition b).isSome then .ok (st, active, used)
    else
      match st.cg.registers b with
      | some already =>
        .ok (st, activeInsert ctx.ends active b,
             updFn used already (some (cnt (used already) + 1)))
      | none =>
        match phiPhase st.cg.registers st.phiNodes st.phiEdges b with
        | .error e => .error e
        | .ok (phiAlloc, pn, pe) =>
          commitPhase ctx st.cg pn pe phiAlloc active used b

/-- Loop of `linear_alloc_block` over the bindings ordered by start. -/
def laGo (ctx : BlockCtx) : List Binding → AllocSt → List Binding → UsedMap →
    Except String AllocSt
  | [], st, _, _ => .ok st
  | b :: rest, st, active, used =>
    match stepBinding ctx st active used b with
    | .error e => .error e
    | .ok (st, active, used) => laGo ctx rest st active used

/-- From `registers.rs` (`linear_alloc_block`): allocate one block, starting
from an empty active set and use-counter map. -/
def linearAllocBlock (ctx : BlockCtx) (ordered : List Binding) (st : AllocSt) :
    Except String AllocSt :=
  laGo ctx ordered st [] (fun _ => none)

/-- From `registers.rs` (`alloc_registers`, function lookup): locate the
function whose entrypoint-to-endpoint block range contains the block.  The
`max().unwrap()` and the final `expect` are embedded as errors; like the
lazy Rust iterator, endpoints of later functions are not inspected once a
match is found. -/
def findFuncIdx (endpoints : List (BlockBinding × Nat)) :
    List BlockBinding → Nat → Nat → Except String Nat
  | [], _, _ => .error "all blocks should belong to a function"
  | entry :: rest, blockIndex, idx =>
    match ((endpoints.filter fun p => p.2 = idx).map (·.1)).max? with
    | none => .error "function has no endpoint"
    | some endBlock =>
      if entry ≤ blockIndex && blockIndex ≤ endBlock then .ok idx
      else findFuncIdx endpoints rest blockIndex (idx + 1)

/-- Sort key used for callee-saved register lists (declaration order of the
`RegisterID` variants). -/
def regKey : RegisterID → Nat
  | .ZeroRegister => 0
  | .GeneralPurpose i => 1 + i
  | .StackPointer => 40

/-- Insertion sort of a register list by `regKey` (`sort_unstable`). -/
def sortRegs : List RegisterID → List RegisterID
  | [] => []
  | r :: rest => insertReg r (sortRegs rest)
where
  insertReg (r : RegisterID) : List RegisterID → List RegisterID
    | [] => [r]
    | x :: xs => if regKey r ≤ regKey x then r :: x :: xs else x :: insertReg r xs

/-- Remove consecutive duplicates (`Vec::dedup`). -/
def dedupAdjacent : List RegisterID → List RegisterID
  | [] => []
  | [r] => [r]
  | r :: r' :: rest =>
    if r = r' then dedupAdjacent (r' :: rest) else r :: dedupAdjacent (r' :: rest)

/-- From `registers.rs` (`alloc_registers`): pre-pin every call-returned
binding that is not used through a call to r0. -/
def prepinRegisters (regs : Binding → Option RegisterID) (rfc utc : List Binding) :
    Binding → Option RegisterID :=
  rfc.foldl
    (fun regs ret =>
      if ret ∈ utc then regs
      else updFn regs ret (some (.GeneralPurpose 0)))
    regs

/-- From `registers.rs` (`alloc_registers`): extend `need_move_from_r0` with
the call-returned bindings that are used through a call. -/
def extendNeedMove (nm : Binding → Bool) (rfc utc : List Binding) :
    Binding → Bool :=
  rfc.foldl (fun nm b => if b ∈ utc then setTrue nm b else nm) nm

/-- From `registers.rs` (`alloc_registers`, per-block loop body): locate the
owning function and run the linear allocator on the block. -/
def stepBlock (ir : IR) (utc : List Binding) (st : AllocSt)
    (bl : BlockLifetimes) : Except String AllocSt :=
  match findFuncIdx ir.function_endpoints ir.function_entrypoints bl.block_index 0 with
  | .error e => .error e
  | .ok fi =>
    linearAllocBlock
      { starts := bl.binding_starts, ends := bl.binding_ends, utc := utc, fi := fi }
      bl.ordered_by_start st

/-- From `registers.rs` (`alloc_registers`): the initial accumulator — the
default `CodegenHints` with the callee-saved vector sized per function, the
flag map, and the r0 pre-pin of call results — together with the mutable
φ hint maps. -/
def initialAllocSt (ir : IR) (allocHints : AllocatorHints) : AllocSt :=
  { cg := { CodegenHints.empty with
      callee_saved_per_function := List.replicate ir.function_entrypoints.length []
      stores_condition := getUsedFlags ir
      registers := prepinRegisters CodegenHints.empty.registers
        allocHints.returned_from_call (usedThroughCallList ir) }
    phiNodes := allocHints.from_phi_node
    phiEdges := allocHints.is_phi_node_with }

/-- From `registers.rs` (`alloc_registers`): the post-processing — sort and
deduplicate every callee-saved list and extend `need_move_from_r0` with the
call results that are used through a call. -/
def finishAlloc (rfc utc : List Binding) (st : AllocSt) : CodegenHints :=
  { st.cg with
    callee_saved_per_function :=
      st.cg.callee_saved_per_function.map fun l => dedupAdjacent (sortRegs l)
    need_move_from_r0 := extendNeedMove st.cg.need_move_from_r0 rfc utc }

/-- From `registers.rs` (`alloc_registers`): the allocator driver.  The
`need_allocation` argument and the hint fields `in_memory`, `used_in_return`
and `zeroes` are destructured but never read by the source function; they
are kept for faithfulness. -/
def allocRegisters (ir : IR) (needAllocation : List Binding)
    (allocHints : AllocatorHints) : Except String CodegenHints :=
  let _ := needAllocation
  match (makeSortedLifetimes ir).foldlM (stepBlock ir (usedThroughCallList ir))
      (initialAllocSt ir allocHints) with
  | .error e => .error e
  | .ok st =>
    .ok (finishAlloc allocHints.returned_from_call (usedThroughCallList ir) st)

end Tracc

namespace Tracc

/-- Register assigned to `b` by a successful allocation. -/
def regOf (r : Except String CodegenHints) (b : Binding) : Option RegisterID :=
  match r with
  | .ok h => h.registers b
  | .error _ => none

/-- Error message of a failed run. -/
def errOf {α : Type} (r : Except String α) : Option String :=
  match r with
  | .ok _ => none
  | .error e => some e

/-- Whether a successful run marked `b` as needing a move out of r0. -/
def needMoveOf (r : Except String CodegenHints) (b : Binding) : Bool :=
  match r with
  | .ok h => h.need_move_from_r0 b
  | .error _ => false

/-- Whether the collision map (computed as in `compute_lifetime_collisions`)
of `ir` records a collision between `a` and `b`. -/
def collidesIn (ir : IR) (a b : Binding) : Bool :=
  match computeLifetimeCollisions ir (computeLifetimes ir) with
  | .ok m =>
    match assocFind m a with
    | some l => b ∈ l
    | none => false
  | .error _ => false

/-- Whether some φ statement of `ir` mentions both `a` and `b` among its
participants (destination or operands). -/
def participateSamePhi (ir : IR) (a b : Binding) : Bool :=
  ir.code.any fun block =>
    block.statements.any fun s =>
      match s with
      | .Assign d (.Phi nodes) =>
        let parts := d :: nodes.map (·.value)
        a ∈ parts && b ∈ parts
      | _ => false

/-- The `ends` list of the computed lifetime of `b`, when `b` is defined. -/
def lifetimeEndsOf (ir : IR) (b : Binding) : Option (List BlockAddress) :=
  ((computeLifetimes ir).find? fun l => l.attached_binding = b).map (·.ends)

/-- A single-block IR whose binding `%0` is defined by `Allocate` (so it is
an `in_memory` hint) and used through a store and a load. -/
def irC2 : IR :=
  { code := [
      { statements := [
          .Assign 0 (.Allocate 4),
          .Assign 1 (.Constant 0),
          .Store 0 1 4,
          .Assign 2 (.Load 0 4)],
        blockEnd := .ret 2 }],
    forward_map := [(0, [])], backwards_map := [(0, [])],
    function_entrypoints := [0], function_endpoints := [(0, 0)] }

/-- A single-block IR with one call whose result feeds the return value. -/
def irC4w : IR :=
  { code := [
      { statements := [
          .Assign 0 (.Call []),
          .Assign 1 (.Add 0 (.binding 0))],
        blockEnd := .ret 1 }],
    forward_map := [(0, [])], backwards_map := [(0, [])],
    function_entrypoints := [0], function_endpoints := [(0, 0)] }

/-- The statement list of `irC1`: eleven constants live across a call
(exhausting the ten callee-saved registers, so `%10` falls back to r0),
then the call `%11` (pre-pinned to r0), then uses of everything. -/
def irC1Statements : List Statement :=
  ((List.range 11).map fun i => Statement.Assign i (.Constant (i + 1)))
  ++ [.Assign 11 (.Call [])]
  ++ [.Assign 12 (.Add 0 (.binding 1))]
  ++ ((List.range 9).map fun k =>
        Statement.Assign (13 + k) (.Add (12 + k) (.binding (2 + k))))
  ++ [.Assign 22 (.Add 21 (.binding 11))]

/-- Single-block IR on which the pre-pinned call result `%11` and the
callee-saved-overflow binding `%10` both end up in r0 although their
lifetimes collide. -/
def irC1 : IR :=
  { code := [{ statements := irC1Statements, blockEnd := .ret 22 }],
    forward_map := [(0, [])], backwards_map := [(0, [])],
    function_entrypoints := [0], function_endpoints := [(0, 0)] }

/-- The statement list of `irC3`: thirty-two simultaneously live bindings
(one more than the thirty-one registers the search ranges cover), where the
thirty-second ends before the longest-lived one, forcing the
spill-to-acquire path. -/
def irC3Statements : List Statement :=
  ((List.range 31).map fun i => Statement.Assign i (.Constant (i + 1)))
  ++ [.Assign 31 (.Constant 99)]
  ++ [.Assign 32 (.Add 31 (.binding 31))]
  ++ ((List.range 31).map fun i =>
        Statement.Assign (33 + i) (.Add i (.binding i)))

/-- Single-block IR that drives `linear_alloc_block` into the
spill-to-acquire branch. -/
def irC3 : IR :=
  { code := [{ statements := irC3Statements, blockEnd := .ret 63 }],
    forward_map := [(0, [])], backwards_map := [(0, [])],
    function_entrypoints := [0], function_endpoints := [(0, 0)] }

/-- An IR whose binding `%9` receives two φ operand sets, the second a
strict subset of the first. -/
def irC7 : IR :=
  { code := [
      { statements := [
          .Assign 9 (.Phi [⟨1, 1⟩, ⟨2, 2⟩]),
          .Assign 9 (.Phi [⟨1, 1⟩])],
        blockEnd := .ret 9 }],
    forward_map := [(0, [])], backwards_map := [(0, [])],
    function_entrypoints := [0], function_endpoints := [(0, 0)] }

/-- An IR with a defined-but-never-used binding `%0` next to a live one. -/
def irC8 : IR :=
  { code := [
      { statements := [
          .Assign 0 (.Constant 1),
          .Assign 1 (.Constant 2)],
        blockEnd := .ret 1 }],
    forward_map := [(0, [])], backwards_map := [(0, [])],
    function_entrypoints := [0], function_endpoints := [(0, 0)] }

/-- The looping IR of the source test `collide_different_blocks`: block 1
jumps back to itself, so block 1 is its own CFG antecessor. -/
def irC6 : IR :=
  { code := [
      { statements := [.Assign 0 (.Constant 2)],
        blockEnd := .branch (.Unconditional 1) },
      { statements := [
          .Assign 1 (.Constant 3),
          .Assign 2 (.Add 0 (.binding 1)),
          .Assign 3 (.Add 2 (.binding 2)),
          .Assign 4 (.Add 3 (.binding 3))],
        blockEnd := .branch (.Unconditional 1) }],
    forward_map := [(0, [1]), (1, [1])], backwards_map := [(0, []), (1, [0, 1])],
    function_entrypoints := [0], function_endpoints := [(1, 0)] }

end Tracc

namespace Tracc

/-- The happens-before formula as the claim states it: when the blocks are
equal compare statement indices, otherwise (and only otherwise) ask the
ancestor relation. -/
def happensBeforeClaimForm (ir : IR) (a b : BlockAddress) : Bool :=
  if a.block = b.block then a.statement < b.statement
  else a.block ∈ antecessors ir b.block

/-- C6 (counterexample): on the looping IR of the source's own
`collide_different_blocks` test, `happens_before((1,3),(1,0))` is true —
block 1 is its own CFG antecessor — while the claim's if-then-else form
compares `3 < 0` and is false.  The claim's formula therefore differs from
the code. -/
theorem c6_happens_before_claim_false :
    happensBefore irC6 ⟨1, 3⟩ ⟨1, 0⟩ = true ∧
    happensBeforeClaimForm irC6 ⟨1, 3⟩ ⟨1, 0⟩ = false := ⟨rfl, rfl⟩

/-- C6 (amended): `happens_before(A,B)` holds iff A and B share a block and
A's statement index is smaller, OR (inclusively) A's block is an ancestor of
B's block in the CFG — a disjunction, not an if-then-else: both disjuncts
apply even when the blocks coincide (which matters on loops). -/
theorem c6_happens_before_amended (ir : IR) (a b : BlockAddress) :
    happensBefore ir a b = true ↔
      (a.block = b.block ∧ a.statement < b.statement) ∨
        a.block ∈ antecessors ir b.block := by
  simp [happensBefore, Bool.or_eq_true, Bool.and_eq_true, beq_iff_eq,
    decide_eq_true_eq]

/-- C1: a concrete violation of the disjoint-live-registers invariant.  On
`irC1` the allocation succeeds, bindings `%10` and `%11` collide in the
collision map, neither is assigned `Stack` or `Zero` and they share no φ
node — yet both are assigned r0: `%10` through the caller-saved fallback
after the callee-saved registers are exhausted, `%11` through the r0
pre-pin of call results. -/
theorem c1_colliding_bindings_share_r0 :
    errOf (allocRegisters irC1 [] (makeAllocatorHints irC1)) = none ∧
    regOf (allocRegisters irC1 [] (makeAllocatorHints irC1)) 10
      = some (.GeneralPurpose 0) ∧
    regOf (allocRegisters irC1 [] (makeAllocatorHints irC1)) 11
      = some (.GeneralPurpose 0) ∧
    collidesIn irC1 10 11 = true ∧
    participateSamePhi irC1 10 11 = false :=
  ⟨rfl, rfl, rfl, rfl, rfl⟩

/-- C2: the `in_memory` hint set is destructured but never read by
`alloc_registers`; on `irC2` the `Allocate`-defined binding `%0` is in
`in_memory` yet is assigned the general-purpose register r0, not `Stack`. -/
theorem c2_in_memory_binding_not_spilled :
    0 ∈ (makeAllocatorHints irC2).in_memory ∧
    regOf (allocRegisters irC2 [] (makeAllocatorHints irC2)) 0
      = some (.GeneralPurpose 0) ∧
    regOf (allocRegisters irC2 [] (makeAllocatorHints irC2)) 0
      ≠ some .StackPointer := by
  refine ⟨by decide, rfl, by decide⟩

/-- C3: the spill-to-acquire path never completes.  Evicting the
longest-lived binding increments the freed register's use counter instead of
releasing it, so the commit assertion
(`assert!(used.insert(register, 1).is_none())`) always fails; on `irC3`
(thirty-two simultaneously live bindings against thirty-one registers) the
allocator aborts instead of handing the freed register to the new
binding. -/
theorem c3_spill_to_acquire_always_aborts :
    errOf (allocRegisters irC3 [] (makeAllocatorHints irC3))
      = some "this register should not be in use" := rfl

/-- C7: an arrival that is a strict subset of the recorded φ operand set is
neither merged nor kept: `add_phi_node` removes the `from_phi_node` entry
and the superset branch forgets to reinsert it.  On `irC7` the destination
`%9` first records the operand set with `%1` and `%2`, then receives the
strict subset holding only `%1`, and the hint disappears (it is not locked —
a later arrival would recreate it). -/
theorem c7_subset_arrival_loses_hint :
    setSubset [1] [1, 2] = true ∧
    (makeAllocatorHints irC7).from_phi_node 9 = none :=
  ⟨rfl, rfl⟩

/-- C8: a binding that is defined but never used does get an empty `ends`
list from `compute_lifetimes`, but collision detection does not tolerate it:
`find_intersections` asserts that both lifetimes have an end, so
`compute_lifetime_collisions` on `irC8` (dead `%0` next to live `%1`)
aborts instead of treating `%0` as colliding with nothing. -/
theorem c8_dead_binding_aborts_collisions :
    lifetimeEndsOf irC8 0 = some [] ∧
    errOf (computeLifetimeCollisions irC8 (computeLifetimes irC8))
      = some "everything comes to an end :(" :=
  ⟨rfl, rfl⟩

end Tracc

namespace Tracc

theorem updFn_same {α β : Type} [DecidableEq α] (f : α → β) (a : α) (v : β) :
    updFn f a v a = v := by simp [updFn]

theorem updFn_other {α β : Type} [DecidableEq α] (f : α → β) (a x : α) (v : β)
    (h : x ≠ a) : updFn f a v x = f x := by simp [updFn, h]

/-- Concrete register assignment for the C5 counterexample. -/
def c5Regs : Binding → Option RegisterID :=
  updFn (fun _ => none) 0 (some (.GeneralPurpose 3))

/-- Concrete use-counter map for the C5 counterexample. -/
def c5Used : UsedMap :=
  updFn (fun _ => none) (.GeneralPurpose 3) (some 1)

/-- C5 (counterexample): the expire phase drops a binding whose end equals
the incoming start.  With `active = [%0]`, `end(%0) = 5` and `start = 5`,
the source's `position(|other| ends[other] > start)` treats `%0` as expired
and removes it, although `end(%0) < start` is false — the claim's strict
inequality predicts `%0` stays active. -/
theorem c5_expire_drops_equal_end :
    (∃ u, expireActive c5Regs (fun _ => 5) 5 [0] c5Used = .ok ([], u)) ∧
      ¬ ((5 : Nat) < 5) :=
  ⟨⟨_, rfl⟩, by decide⟩

/-- C5 (amended): at the start of processing a binding with start index
`start`, the expire phase removes from `active` exactly the bindings whose
end is less than **or equal to** `start` (not strictly less), and for each
removed binding decrements the use count of its register, removing the
counter entry when the count reaches zero.  Hypotheses: `active` is sorted
ascending by end (the `ActiveBindingSet` invariant), the counters agree with
the active registers, no counter stores zero, and every active binding has a
register. -/
theorem c5_expire_amended (regs : Binding → Option RegisterID)
    (ends : Binding → Nat) (start : Nat) (active : List Binding) (used : UsedMap)
    (hsort : active.Pairwise (fun a b => ends a ≤ ends b))
    (hcnt : ∀ r, cnt (used r) = active.countP (fun x => regs x == some r))
    (hpos : ∀ r, used r ≠ some 0)
    (hreg : ∀ a ∈ active, (regs a).isSome) :
    ∃ u, expireActive regs ends start active used
        = .ok (active.filter (fun x => decide (start < ends x)), u) ∧
      (∀ r, cnt (u r) = cnt (used r)
          - (active.filter (fun x => ! decide (start < ends x))).countP
              (fun x => regs x == some r)) ∧
      (∀ r, u r ≠ some 0) := by
  induction active generalizing used with
  | nil =>
    exact ⟨used, rfl, by intro r; simp [List.countP_nil], hpos⟩
  | cons a rest ih =>
    obtain ⟨hR, hsort'⟩ := List.pairwise_cons.mp hsort
    by_cases hlt : start < ends a
    · refine ⟨used, ?_, ?_, hpos⟩
      · have hfil : (a :: rest).filter (fun x => decide (start < ends x)) = a :: rest := by
          refine List.filter_eq_self.mpr ?_
          intro x hx
          rcases List.mem_cons.mp hx with hx | hx
          · subst hx; simpa using hlt
          · simpa using lt_of_lt_of_le hlt (hR x hx)
        rw [hfil]
        simp [expireActive, List.takeWhile_cons, List.dropWhile_cons, hlt, releaseRegs]
      · intro r
        have hfil : (a :: rest).filter (fun x => ! decide (start < ends x)) = [] := by
          refine List.filter_eq_nil_iff.mpr ?_
          intro x hx
          rcases List.mem_cons.mp hx with hx | hx
          · subst hx; simpa using hlt
          · simpa using lt_of_lt_of_le hlt (hR x hx)
        simp [hfil]
    · obtain ⟨r, hr⟩ : ∃ r, regs a = some r :=
        Option.isSome_iff_exists.mp (hreg a (List.mem_cons_self a rest))
      obtain ⟨n, hn⟩ : ∃ n, used r = some n := by
        cases h : used r with
        | none =>
          exfalso
          have h0 := hcnt r
          rw [h] at h0
          simp [cnt, List.countP_cons, hr] at h0
        | some n => exact ⟨n, rfl⟩
      have hcountA : n = (a :: rest).countP (fun x => regs x == some r) := by
        have := hcnt r; rwa [hn] at this
      have hcons : (a :: rest).countP (fun x => regs x == some r)
          = rest.countP (fun x => regs x == some r) + 1 := by
        simp [List.countP_cons, hr]
      have hn1 : n ≠ 0 := by
        intro h0; rw [h0] at hn; exact hpos r hn
      have main : ∀ used₁ : UsedMap,
          expireActive regs ends start (a :: rest) used
            = expireActive regs ends start rest used₁ →
          (∀ r', cnt (used₁ r') = rest.countP (fun x => regs x == some r')) →
          (∀ r', used₁ r' ≠ some 0) →
          ∃ u, expireActive regs ends start (a :: rest) used
              = .ok ((a :: rest).filter (fun x => decide (start < ends x)), u) ∧
            (∀ r', cnt (u r') = cnt (used r')
                - ((a :: rest).filter (fun x => ! decide (start < ends x))).countP
                    (fun x => regs x == some r')) ∧
            (∀ r', u r' ≠ some 0) := by
        intro used₁ hkey hcnt₁ hpos₁
        obtain ⟨u, hEq, hcounts, hposu⟩ :=
          ih used₁ hsort' hcnt₁ hpos₁ (fun x hx => hreg x (List.mem_cons_of_mem a hx))
        refine ⟨u, ?_, ?_, hposu⟩
        · rw [hkey, hEq]
          have hfc : (a :: rest).filter (fun x => decide (start < ends x))
              = rest.filter (fun x => decide (start < ends x)) := by
            simp [List.filter_cons, hlt]
          rw [hfc]
        · intro r'
          have hfil : (a :: rest).filter (fun x => ! decide (start < ends x))
              = a :: rest.filter (fun x => ! decide (start < ends x)) := by
            simp [List.filter_cons, hlt]
          rw [hfil, List.countP_cons]
          by_cases hrr : r' = r
          · subst hrr
            have hc1 : cnt (used₁ r') = n - 1 := by
              rw [hcnt₁]
              have h1 := hcountA
              have h2 := hcons
              omega
            have hgoal := hcounts r'
            rw [hc1] at hgoal
            have hra : (regs a == some r') = true := by simp [hr]
            rw [hra, hn]
            simp only [cnt, Option.getD_some] at hgoal ⊢
            simp only [if_true]
            omega
          · have hna : (regs a == some r') = false := by
              simp [hr]
              intro hc; exact hrr hc.symm
            have hc1 : cnt (used₁ r') = cnt (used r') := by
              rw [hcnt₁]
              have h2 := hcnt r'
              rw [List.countP_cons, hna] at h2
              simpa using h2.symm
            have hgoal := hcounts r'
            rw [hc1] at hgoal
            rw [hna]
            simpa using hgoal
      by_cases he : n = 1
      · refine main (updFn used r none) ?_ ?_ ?_
        · simp [expireActive, List.takeWhile_cons, List.dropWhile_cons, hlt,
            releaseRegs, hr, hn, he]
        · intro r'
          by_cases hrr : r' = r
          · subst hrr
            rw [updFn_same]
            have h1 := hcountA
            have h2 := hcons
            simp only [cnt, Option.getD_none]
            omega
          · rw [updFn_other _ _ _ _ hrr]
            have h2 := hcnt r'
            have hna : (regs a == some r') = false := by
              simp [hr]
              intro hc; exact hrr hc.symm
            rw [List.countP_cons, hna] at h2
            simpa using h2
        · intro r'
          by_cases hrr : r' = r
          · subst hrr; rw [updFn_same]; exact Option.noConfusion
          · rw [updFn_other _ _ _ _ hrr]; exact hpos r'
      · refine main (updFn used r (some (n - 1))) ?_ ?_ ?_
        · simp [expireActive, List.takeWhile_cons, List.dropWhile_cons, hlt,
            releaseRegs, hr, hn, he]
        · intro r'
          by_cases hrr : r' = r
          · subst hrr
            rw [updFn_same]
            have h1 := hcountA
            have h2 := hcons
            simp only [cnt, Option.getD_some]
            omega
          · rw [updFn_other _ _ _ _ hrr]
            have h2 := hcnt r'
            have hna : (regs a == some r') = false := by
              simp [hr]
              intro hc; exact hrr hc.symm
            rw [List.countP_cons, hna] at h2
            simpa using h2
        · intro r'
          by_cases hrr : r' = r
          · subst hrr
            rw [updFn_same]
            intro hc
            have := Option.some.inj hc
            omega
          · rw [updFn_other _ _ _ _ hrr]; exact hpos r'

end Tracc

namespace Tracc

theorem findFree_mem {used : UsedMap} {l : List RegisterID} {r : RegisterID}
    (h : findFree used l = some r) : r ∈ l :=
  List.mem_of_find?_eq_some h

theorem regRange_gp {a b : Nat} {r : RegisterID} (h : r ∈ regRange a b) :
    ∃ i, r = .GeneralPurpose i := by
  obtain ⟨i, _, hi⟩ := List.mem_map.mp h
  exact ⟨i, hi.symm⟩

theorem freeSearch_registers (cg : CodegenHints) (utc : List Binding)
    (used : UsedMap) (b : Binding) (fi : Nat) :
    (freeSearch cg utc used b fi).2.registers = cg.registers := by
  unfold freeSearch
  by_cases h : b ∈ utc
  · simp only [h, if_true]
    cases findFree used (regRange 19 29) with
    | some r => rfl
    | none =>
      cases findFree used (regRange 0 15 ++ regRange 16 31) with
      | some r => rfl
      | none => rfl
  · simp only [h, if_false]

theorem freeSearch_fst_gp {cg : CodegenHints} {utc : List Binding}
    {used : UsedMap} {b : Binding} {fi : Nat} {r : RegisterID}
    (h : (freeSearch cg utc used b fi).1 = some r) :
    ∃ i, r = .GeneralPurpose i := by
  unfold freeSearch at h
  by_cases hm : b ∈ utc
  · simp only [hm, if_true] at h
    cases h19 : findFree used (regRange 19 29) with
    | some r' =>
      rw [h19] at h
      simp at h
      subst h
      exact regRange_gp (findFree_mem h19)
    | none =>
      rw [h19] at h
      cases hrest : findFree used (regRange 0 15 ++ regRange 16 31) with
      | some r' =>
        rw [hrest] at h
        simp at h
        subst h
        rcases List.mem_append.mp (findFree_mem hrest) with hm' | hm' <;>
          exact regRange_gp hm'
      | none => rw [hrest] at h; exact absurd h (by simp)
  · simp only [hm, if_false] at h
    rcases List.mem_append.mp (findFree_mem h) with hm' | hm'
    · rcases List.mem_append.mp hm' with hm'' | hm'' <;> exact regRange_gp hm''
    · exact regRange_gp hm'

theorem collectAllocs_dedup_singleton {regs : Binding → Option RegisterID}
    {l : List Binding} {r : RegisterID} (h : (collectAllocs regs l).dedup = [r]) :
    ∃ y, regs y = some r := by
  have hmem : r ∈ (collectAllocs regs l).dedup := by
    rw [h]; exact List.mem_singleton_self r
  obtain ⟨y, -, hy⟩ := List.mem_filterMap.mp (List.mem_dedup.mp hmem)
  exact ⟨y, hy⟩

theorem phiNodesPhase_some_source {regs : Binding → Option RegisterID}
    {pn pe : PhiMap} {b : Binding} {pa : Option RegisterID} {pn' pe' : PhiMap}
    (h : phiNodesPhase regs pn pe b = .ok (pa, pn', pe')) :
    ∀ r, pa = some r → ∃ y, regs y = some r := by
  intro r hr
  unfold phiNodesPhase at h
  split at h
  · dsimp only at h
    split at h
    · split at h
      · rename_i r0 hd
        have hpa := congrArg Prod.fst (Except.ok.inj h)
        dsimp only at hpa
        rw [← hpa] at hr
        injection hr with hr
        subst hr
        exact collectAllocs_dedup_singleton hd
      · exact absurd h (by simp)
    · exact absurd h (by simp)
  · have hpa := congrArg Prod.fst (Except.ok.inj h)
    dsimp only at hpa
    rw [← hpa] at hr
    exact absurd hr (by simp)

theorem phiPhase_some_source {regs : Binding → Option RegisterID}
    {pn pe : PhiMap} {b : Binding} {pa : Option RegisterID} {pn' pe' : PhiMap}
    (h : phiPhase regs pn pe b = .ok (pa, pn', pe')) :
    ∀ r, pa = some r → ∃ y, regs y = some r := by
  intro r hr
  unfold phiPhase at h
  split at h
  · dsimp only at h
    split at h
    · exact phiNodesPhase_some_source h r hr
    · rename_i r0 hd
      have hpa := congrArg Prod.fst (Except.ok.inj h)
      dsimp only at hpa
      rw [← hpa] at hr
      injection hr with hr
      subst hr
      exact collectAllocs_dedup_singleton hd
    · exact absurd h (by simp)
  · exact phiNodesPhase_some_source h r hr

theorem evictPhase_cases {ctx : BlockCtx} {cg : CodegenHints}
    {oreg : Option RegisterID} {active : List Binding} {used : UsedMap}
    {b : Binding} {found : Option RegisterID} {cg₁ : CodegenHints}
    {active₁ : List Binding} {used₁ : UsedMap}
    (h : evictPhase ctx cg oreg active used b = .ok (found, cg₁, active₁, used₁)) :
    (found = oreg ∧ cg₁ = cg ∧ used₁ = used) ∨
    (∃ reg, found = some reg ∧ (used₁ reg).isSome = true) := by
  unfold evictPhase at h
  cases horeg : oreg with
  | some r0 =>
    rw [horeg] at h
    dsimp only at h
    simp only [Except.ok.injEq, Prod.mk.injEq] at h
    obtain ⟨h1, h2, -, h4⟩ := h
    exact Or.inl ⟨h1.symm, h2.symm, h4.symm⟩
  | none =>
    rw [horeg] at h
    dsimp only at h
    cases hlast : active.getLast? with
    | none => rw [hlast] at h; exact absurd h (by simp)
    | some longest =>
      rw [hlast] at h
      dsimp only at h
      by_cases hlt : ctx.ends b < ctx.ends longest
      · rw [if_pos hlt] at h
        cases hlr : cg.registers longest with
        | none => rw [hlr] at h; exact absurd h (by simp)
        | some reg =>
          rw [hlr] at h
          dsimp only at h
          simp only [Except.ok.injEq, Prod.mk.injEq] at h
          obtain ⟨h1, -, -, h4⟩ := h
          refine Or.inr ⟨reg, h1.symm, ?_⟩
          rw [← h4, updFn_same]
          rfl
      · rw [if_neg hlt] at h
        simp only [Except.ok.injEq, Prod.mk.injEq] at h
        obtain ⟨h1, h2, -, h4⟩ := h
        exact Or.inl ⟨h1.symm, h2.symm, h4.symm⟩

theorem evictAndCommit_ok_shape {ctx : BlockCtx} {cg : CodegenHints}
    {pn pe : PhiMap} {oreg : Option RegisterID} {active : List Binding}
    {used : UsedMap} {b : Binding} {st' : AllocSt} {active' : List Binding}
    {used' : UsedMap}
    (h : evictAndCommit ctx cg pn pe oreg active used b = .ok (st', active', used')) :
    st'.phiNodes = pn ∧ st'.phiEdges = pe ∧
    ((∃ r, oreg = some r ∧
        st'.cg = { cg with registers := updFn cg.registers b (some r) }) ∨
      (oreg = none ∧
        st'.cg = { cg with
          completely_spilled := setTrue cg.completely_spilled b,
          registers := updFn cg.registers b (some .StackPointer) })) := by
  unfold evictAndCommit at h
  cases hev : evictPhase ctx cg oreg active used b with
  | error e => rw [hev] at h; exact absurd h (by simp)
  | ok q =>
    obtain ⟨found, cg₁, active₁, used₁⟩ := q
    rw [hev] at h
    dsimp only at h
    rcases evictPhase_cases hev with ⟨hf, hcg, hu⟩ | ⟨reg, hf, hsome⟩
    · subst hf; subst hcg; subst hu
      cases horeg : found with
      | some register =>
        rw [horeg] at h
        dsimp only at h
        by_cases hu : (used₁ register).isSome
        · rw [if_pos hu] at h; exact absurd h (by simp)
        · rw [if_neg hu] at h
          simp only [Except.ok.injEq, Prod.mk.injEq] at h
          obtain ⟨h1, -, -⟩ := h
          rw [← h1]
          exact ⟨rfl, rfl, Or.inl ⟨register, rfl, rfl⟩⟩
      | none =>
        rw [horeg] at h
        dsimp only at h
        simp only [Except.ok.injEq, Prod.mk.injEq] at h
        obtain ⟨h1, -, -⟩ := h
        rw [← h1]
        exact ⟨rfl, rfl, Or.inr ⟨rfl, rfl⟩⟩
    · subst hf
      dsimp only at h
      rw [if_pos hsome] at h
      exact absurd h (by simp)

end Tracc

namespace Tracc

theorem stepBinding_registers {ctx : BlockCtx} {st : AllocSt}
    {active : List Binding} {used : UsedMap} {b : Binding} {st' : AllocSt}
    {active' : List Binding} {used' : UsedMap}
    (h : stepBinding ctx st active used b = .ok (st', active', used')) :
    (∀ x r, st.cg.registers x = some r → st'.cg.registers x = some r) ∧
    (∀ x r, st'.cg.registers x = some r → st.cg.registers x = some r
      ∨ r = .StackPointer ∨ (∃ y, st.cg.registers y = some r)
      ∨ (∃ i, r = .GeneralPurpose i)) := by
  unfold stepBinding at h
  cases hexp : expireActive st.cg.registers ctx.ends (ctx.starts b) active used with
  | error e => rw [hexp] at h; exact absurd h (by simp)
  | ok p =>
    obtain ⟨act₁, u₁⟩ := p
    rw [hexp] at h
    dsimp only at h
    by_cases hsc : (st.cg.stores_condition b).isSome
    · rw [if_pos hsc] at h
      simp only [Except.ok.injEq, Prod.mk.injEq] at h
      obtain ⟨h1, -, -⟩ := h
      rw [← h1]
      exact ⟨fun x r hx => hx, fun x r hx => Or.inl hx⟩
    · rw [if_neg hsc] at h
      cases hreg : st.cg.registers b with
      | some already =>
        rw [hreg] at h
        dsimp only at h
        simp only [Except.ok.injEq, Prod.mk.injEq] at h
        obtain ⟨h1, -, -⟩ := h
        rw [← h1]
        exact ⟨fun x r hx => hx, fun x r hx => Or.inl hx⟩
      | none =>
        rw [hreg] at h
        dsimp only at h
        cases hphi : phiPhase st.cg.registers st.phiNodes st.phiEdges b with
        | error e => rw [hphi] at h; exact absurd h (by simp)
        | ok q =>
          obtain ⟨pa, pn, pe⟩ := q
          rw [hphi] at h
          dsimp only at h
          unfold commitPhase at h
          cases hpa : pa with
          | some r0 =>
            rw [hpa] at h
            dsimp only at h
            obtain ⟨-, -, hshape⟩ := evictAndCommit_ok_shape h
            rcases hshape with ⟨r', hr', hcg⟩ | ⟨hnone, -⟩
            · have hr0 : r' = r0 := by injection hr' with hr'; exact hr'.symm
              subst hr0
              have hregs : st'.cg.registers = updFn st.cg.registers b (some r') := by
                rw [hcg]
              constructor
              · intro x r hx
                rw [hregs, updFn_other]
                · exact hx
                · intro hxb; rw [hxb, hreg] at hx; exact absurd hx (by simp)
              · intro x r hx
                rw [hregs] at hx
                by_cases hxb : x = b
                · subst hxb
                  rw [updFn_same] at hx
                  injection hx with hx
                  subst hx
                  have := phiPhase_some_source hphi r' (by rw [hpa])
                  exact Or.inr (Or.inr (Or.inl this))
                · rw [updFn_other _ _ _ _ hxb] at hx
                  exact Or.inl hx
            · exact absurd hnone (by simp)
          | none =>
            rw [hpa] at h
            dsimp only at h
            cases hfs : freeSearch st.cg ctx.utc u₁ b ctx.fi with
            | mk oreg cg₁ =>
              rw [hfs] at h
              dsimp only at h
              have hcg₁ : cg₁.registers = st.cg.registers := by
                have := freeSearch_registers st.cg ctx.utc u₁ b ctx.fi
                rw [hfs] at this
                exact this
              obtain ⟨-, -, hshape⟩ := evictAndCommit_ok_shape h
              rcases hshape with ⟨r', hr', hcg⟩ | ⟨-, hcg⟩
              · have hregs : st'.cg.registers = updFn cg₁.registers b (some r') := by
                  rw [hcg]
                have hgp : ∃ i, r' = .GeneralPurpose i := by
                  apply @freeSearch_fst_gp st.cg ctx.utc u₁ b ctx.fi r'
                  rw [hfs, hr']
                constructor
                · intro x r hx
                  rw [hregs, hcg₁, updFn_other]
                  · exact hx
                  · intro hxb; rw [hxb, hreg] at hx; exact absurd hx (by simp)
                · intro x r hx
                  rw [hregs, hcg₁] at hx
                  by_cases hxb : x = b
                  · subst hxb
                    rw [updFn_same] at hx
                    injection hx with hx
                    subst hx
                    exact Or.inr (Or.inr (Or.inr hgp))
                  · rw [updFn_other _ _ _ _ hxb] at hx
                    exact Or.inl hx
              · have hregs : st'.cg.registers
                    = updFn cg₁.registers b (some .StackPointer) := by
                  rw [hcg]
                constructor
                · intro x r hx
                  rw [hregs, hcg₁, updFn_other]
                  · exact hx
                  · intro hxb; rw [hxb, hreg] at hx; exact absurd hx (by simp)
                · intro x r hx
                  rw [hregs, hcg₁] at hx
                  by_cases hxb : x = b
                  · subst hxb
                    rw [updFn_same] at hx
                    injection hx with hx
                    exact Or.inr (Or.inl hx.symm)
                  · rw [updFn_other _ _ _ _ hxb] at hx
                    exact Or.inl hx

end Tracc

namespace Tracc

theorem laGo_registers {ctx : BlockCtx} {l : List Binding} {st : AllocSt}
    {active : List Binding} {used : UsedMap} {st' : AllocSt}
    (h : laGo ctx l st active used = .ok st') :
    (∀ x r, st.cg.registers x = some r → st'.cg.registers x = some r) ∧
    (∀ x r, st'.cg.registers x = some r → st.cg.registers x = some r
      ∨ r = .StackPointer ∨ (∃ y, st.cg.registers y = some r)
      ∨ (∃ i, r = .GeneralPurpose i)) := by
  induction l generalizing st active used with
  | nil =>
    unfold laGo at h
    simp only [Except.ok.injEq] at h
    rw [← h]
    exact ⟨fun x r hx => hx, fun x r hx => Or.inl hx⟩
  | cons b rest ih =>
    unfold laGo at h
    cases hstep : stepBinding ctx st active used b with
    | error e => rw [hstep] at h; exact absurd h (by simp)
    | ok p =>
      obtain ⟨st₁, act₁, u₁⟩ := p
      rw [hstep] at h
      dsimp only at h
      obtain ⟨hf₁, hb₁⟩ := stepBinding_registers hstep
      obtain ⟨hf₂, hb₂⟩ := ih h
      constructor
      · exact fun x r hx => hf₂ x r (hf₁ x r hx)
      · intro x r hx
        rcases hb₂ x r hx with hx' | hx' | ⟨y, hy⟩ | hgp
        · rcases hb₁ x r hx' with h0 | h0 | h0 | h0
          · exact Or.inl h0
          · exact Or.inr (Or.inl h0)
          · exact Or.inr (Or.inr (Or.inl h0))
          · exact Or.inr (Or.inr (Or.inr h0))
        · exact Or.inr (Or.inl hx')
        · rcases hb₁ y r hy with h0 | h0 | h0 | h0
          · exact Or.inr (Or.inr (Or.inl ⟨y, h0⟩))
          · exact Or.inr (Or.inl h0)
          · exact Or.inr (Or.inr (Or.inl h0))
          · exact Or.inr (Or.inr (Or.inr h0))
        · exact Or.inr (Or.inr (Or.inr hgp))

theorem stepBlock_registers {ir : IR} {utc : List Binding} {st : AllocSt}
    {bl : BlockLifetimes} {st' : AllocSt}
    (h : stepBlock ir utc st bl = .ok st') :
    (∀ x r, st.cg.registers x = some r → st'.cg.registers x = some r) ∧
    (∀ x r, st'.cg.registers x = some r → st.cg.registers x = some r
      ∨ r = .StackPointer ∨ (∃ y, st.cg.registers y = some r)
      ∨ (∃ i, r = .GeneralPurpose i)) := by
  unfold stepBlock at h
  cases hfi : findFuncIdx ir.function_endpoints ir.function_entrypoints bl.block_index 0 with
  | error e => rw [hfi] at h; exact absurd h (by simp)
  | ok fi =>
    rw [hfi] at h
    dsimp only at h
    exact laGo_registers h

theorem blocksFold_registers {ir : IR} {utc : List Binding}
    {ls : List BlockLifetimes} {st st' : AllocSt}
    (h : ls.foldlM (stepBlock ir utc) st = .ok st') :
    (∀ x r, st.cg.registers x = some r → st'.cg.registers x = some r) ∧
    (∀ x r, st'.cg.registers x = some r → st.cg.registers x = some r
      ∨ r = .StackPointer ∨ (∃ y, st.cg.registers y = some r)
      ∨ (∃ i, r = .GeneralPurpose i)) := by
  induction ls generalizing st with
  | nil =>
    have h' : (Except.ok st : Except String AllocSt) = .ok st' := h
    have h'' : st = st' := by injection h'
    rw [← h'']
    exact ⟨fun x r hx => hx, fun x r hx => Or.inl hx⟩
  | cons bl rest ih =>
    have h2 : (stepBlock ir utc st bl >>= fun s =>
        List.foldlM (stepBlock ir utc) s rest) = .ok st' := h
    cases hstep : stepBlock ir utc st bl with
    | error e =>
      rw [hstep] at h2
      exact absurd h2 (by simp [Bind.bind, Except.bind])
    | ok st₁ =>
      rw [hstep] at h2
      have h3 : List.foldlM (stepBlock ir utc) st₁ rest = .ok st' := h2
      obtain ⟨hf₁, hb₁⟩ := stepBlock_registers hstep
      obtain ⟨hf₂, hb₂⟩ := ih h3
      constructor
      · exact fun x r hx => hf₂ x r (hf₁ x r hx)
      · intro x r hx
        rcases hb₂ x r hx with hx' | hx' | ⟨y, hy⟩ | hgp
        · rcases hb₁ x r hx' with h0 | h0 | h0 | h0
          · exact Or.inl h0
          · exact Or.inr (Or.inl h0)
          · exact Or.inr (Or.inr (Or.inl h0))
          · exact Or.inr (Or.inr (Or.inr h0))
        · exact Or.inr (Or.inl hx')
        · rcases hb₁ y r hy with h0 | h0 | h0 | h0
          · exact Or.inr (Or.inr (Or.inl ⟨y, h0⟩))
          · exact Or.inr (Or.inl h0)
          · exact Or.inr (Or.inr (Or.inl h0))
          · exact Or.inr (Or.inr (Or.inr h0))
        · exact Or.inr (Or.inr (Or.inr hgp))

theorem prepinRegisters_not_mem {regs : Binding → Option RegisterID}
    {rfc utc : List Binding} {b : Binding} (hb : b ∉ rfc) :
    prepinRegisters regs rfc utc b = regs b := by
  induction rfc generalizing regs with
  | nil => rfl
  | cons a rest ih =>
    have hba : b ≠ a := fun h => hb (h ▸ List.mem_cons_self a rest)
    have hbr : b ∉ rest := fun h => hb (List.mem_cons_of_mem a h)
    unfold prepinRegisters at ih ⊢
    rw [List.foldl_cons]
    by_cases ha : a ∈ utc
    · rw [if_pos ha]
      exact ih hbr
    · rw [if_neg ha]
      rw [ih hbr, updFn_other _ _ _ _ hba]

theorem prepinRegisters_mem {regs : Binding → Option RegisterID}
    {rfc utc : List Binding} {b : Binding} (hb : b ∈ rfc) (hutc : b ∉ utc) :
    prepinRegisters regs rfc utc b = some (.GeneralPurpose 0) := by
  induction rfc generalizing regs with
  | nil => exact absurd hb (by simp)
  | cons a rest ih =>
    unfold prepinRegisters at ih ⊢
    rw [List.foldl_cons]
    by_cases hbr : b ∈ rest
    · by_cases ha : a ∈ utc
      · rw [if_pos ha]; exact ih hbr
      · rw [if_neg ha]; exact ih hbr
    · have hba : b = a := by
        rcases List.mem_cons.mp hb with h | h
        · exact h
        · exact absurd h hbr
      subst hba
      rw [if_neg hutc]
      have := @prepinRegisters_not_mem (updFn regs b (some (.GeneralPurpose 0)))
        rest utc b hbr
      unfold prepinRegisters at this
      rw [this, updFn_same]

theorem setTrue_true {f : Binding → Bool} {a b : Binding} (h : f b = true) :
    setTrue f a b = true := by
  unfold setTrue
  by_cases hba : b = a <;> simp [hba, h]

theorem extendNeedMove_mono {nm : Binding → Bool} {rfc utc : List Binding}
    {b : Binding} (h : nm b = true) : extendNeedMove nm rfc utc b = true := by
  induction rfc generalizing nm with
  | nil => exact h
  | cons a rest ih =>
    unfold extendNeedMove at ih ⊢
    rw [List.foldl_cons]
    by_cases ha : a ∈ utc
    · rw [if_pos ha]
      exact ih (setTrue_true h)
    · rw [if_neg ha]
      exact ih h

theorem extendNeedMove_true_of {nm : Binding → Bool} {rfc utc : List Binding}
    {b : Binding} (hb : b ∈ rfc) (hu : b ∈ utc) :
    extendNeedMove nm rfc utc b = true := by
  induction rfc generalizing nm with
  | nil => exact absurd hb (by simp)
  | cons a rest ih =>
    unfold extendNeedMove at ih ⊢
    rw [List.foldl_cons]
    by_cases hbr : b ∈ rest
    · by_cases ha : a ∈ utc
      · rw [if_pos ha]; exact ih hbr
      · rw [if_neg ha]; exact ih hbr
    · have hba : b = a := by
        rcases List.mem_cons.mp hb with h | h
        · exact h
        · exact absurd h hbr
      subst hba
      rw [if_pos hu]
      have hT : setTrue nm b b = true := by unfold setTrue; simp
      exact extendNeedMove_mono hT

end Tracc

namespace Tracc

theorem prepinRegisters_noZero {regs : Binding → Option RegisterID}
    {rfc utc : List Binding}
    (h0 : ∀ x r, regs x = some r → r ≠ .ZeroRegister) :
    ∀ x r, prepinRegisters regs rfc utc x = some r → r ≠ .ZeroRegister := by
  induction rfc generalizing regs with
  | nil => exact h0
  | cons a rest ih =>
    unfold prepinRegisters at ih ⊢
    rw [List.foldl_cons]
    by_cases ha : a ∈ utc
    · rw [if_pos ha]
      exact ih h0
    · rw [if_neg ha]
      refine ih ?_
      intro x r hx
      by_cases hxa : x = a
      · subst hxa
        rw [updFn_same] at hx
        injection hx with hx
        rw [← hx]
        simp
      · rw [updFn_other _ _ _ _ hxa] at hx
        exact h0 x r hx

/-- C4: for every IR and hints, on a successful run of `alloc_registers`
every call-returned binding that is not used through a call is pre-pinned to
r0 and keeps that assignment in the output (the per-binding loop never
overwrites an existing assignment on a successful run), while every
call-returned binding that is used through a call ends up in
`need_move_from_r0`. -/
theorem c4_returned_from_call_r0 (ir : IR) (na : List Binding)
    (hints : AllocatorHints) (out : CodegenHints) (b : Binding)
    (hok : allocRegisters ir na hints = .ok out)
    (hb : b ∈ hints.returned_from_call) :
    (b ∉ usedThroughCallList ir → out.registers b = some (.GeneralPurpose 0)) ∧
    (b ∈ usedThroughCallList ir → out.need_move_from_r0 b = true) := by
  unfold allocRegisters at hok
  dsimp only at hok
  split at hok
  · exact absurd hok (by simp)
  · rename_i st heq
    have hout := Except.ok.inj hok
    have hregs : out.registers = st.cg.registers := by rw [← hout]; rfl
    have hneed : out.need_move_from_r0
        = extendNeedMove st.cg.need_move_from_r0 hints.returned_from_call
            (usedThroughCallList ir) := by rw [← hout]; rfl
    constructor
    · intro hnu
      have hpin : prepinRegisters (fun _ => none) hints.returned_from_call
          (usedThroughCallList ir) b = some (.GeneralPurpose 0) :=
        prepinRegisters_mem hb hnu
      have hpres := (blocksFold_registers heq).1 b (.GeneralPurpose 0) hpin
      rw [hregs]
      exact hpres
    · intro hu
      rw [hneed]
      exact extendNeedMove_true_of hb hu

/-- C4 (witness): on `irC4w` the call result `%0` does not cross another
call, and the output assigns it r0. -/
theorem c4_returned_from_call_r0_witness :
    regOf (allocRegisters irC4w [] (makeAllocatorHints irC4w)) 0
      = some (.GeneralPurpose 0) := by
  cases hrun : allocRegisters irC4w [] (makeAllocatorHints irC4w) with
  | error e =>
    have hne : errOf (allocRegisters irC4w [] (makeAllocatorHints irC4w)) = none := rfl
    rw [hrun] at hne
    simp [errOf] at hne
  | ok out =>
    have h := (c4_returned_from_call_r0 irC4w [] (makeAllocatorHints irC4w) out 0
      hrun (by decide)).1 (by decide)
    show regOf (Except.ok out) 0 = some (.GeneralPurpose 0)
    simpa [regOf] using h

/-- C10: the `zeroes` hint field never influences allocation — two hint
records that differ only in `zeroes` produce the same output — and no
binding is ever assigned the zero register by `alloc_registers` (every
assignment is either the r0 pre-pin, a general-purpose register from the
search ranges, a register already assigned to some binding, or `Stack`). -/
theorem c10_zeroes_hint_never_influences (ir : IR) (na : List Binding)
    (hints : AllocatorHints) (z₁ z₂ : List Binding) :
    allocRegisters ir na { hints with zeroes := z₁ }
      = allocRegisters ir na { hints with zeroes := z₂ } ∧
    (∀ out b r, allocRegisters ir na hints = .ok out →
      out.registers b = some r → r ≠ .ZeroRegister) := by
  constructor
  · rfl
  · intro out b r hok hreg
    unfold allocRegisters at hok
    dsimp only at hok
    split at hok
    · exact absurd hok (by simp)
    · rename_i st heq
      have hout := Except.ok.inj hok
      have hregs : out.registers = st.cg.registers := by rw [← hout]; rfl
      rw [hregs] at hreg
      have hnz0 : ∀ x r', prepinRegisters (fun _ => none)
          hints.returned_from_call (usedThroughCallList ir) x = some r' →
          r' ≠ RegisterID.ZeroRegister :=
        prepinRegisters_noZero (fun x r' hx => absurd hx (by simp))
      rcases (blocksFold_registers heq).2 b r hreg with h0 | h0 | ⟨y, hy⟩ | ⟨i, hi⟩
      · exact hnz0 b r h0
      · rw [h0]; simp
      · exact hnz0 y r hy
      · rw [hi]; simp

/-- C10 (witness): concrete instance — two `zeroes` sets give equal outputs
on `irC4w`, and the register the run assigns to `%0` is not the zero
register. -/
theorem c10_zeroes_hint_never_influences_witness :
    allocRegisters irC4w [] { makeAllocatorHints irC4w with zeroes := [5] }
      = allocRegisters irC4w [] { makeAllocatorHints irC4w with zeroes := [] } ∧
    (RegisterID.GeneralPurpose 0) ≠ RegisterID.ZeroRegister := by
  obtain ⟨h1, h2⟩ := c10_zeroes_hint_never_influences irC4w []
    (makeAllocatorHints irC4w) [5] []
  refine ⟨h1, ?_⟩
  cases hrun : allocRegisters irC4w [] (makeAllocatorHints irC4w) with
  | error e =>
    have hne : errOf (allocRegisters irC4w [] (makeAllocatorHints irC4w)) = none := rfl
    rw [hrun] at hne
    simp [errOf] at hne
  | ok out =>
    have hv : regOf (allocRegisters irC4w [] (makeAllocatorHints irC4w)) 0
        = some (.GeneralPurpose 0) := rfl
    rw [hrun] at hv
    simp only [regOf] at hv
    exact h2 out 0 (.GeneralPurpose 0) hrun hv

end Tracc

namespace Tracc

/-- C5 (witness): the amended expire statement instantiated at the concrete
state of the counterexample — `%0` (end 5) is dropped at start 5 and the
counter entry of its register r3 is removed. -/
theorem c5_expire_amended_witness :
    ∃ u, expireActive c5Regs (fun _ => 5) 5 [0] c5Used
        = .ok (([0] : List Binding).filter (fun x => decide (5 < (fun _ => 5) x)), u) ∧
      cnt (u (.GeneralPurpose 3)) = 0 := by
  obtain ⟨u, h1, h2, h3⟩ := c5_expire_amended c5Regs (fun _ => 5) 5 [0] c5Used
    (by simp)
    (by
      intro r
      by_cases hr : r = RegisterID.GeneralPurpose 3
      · subst hr
        simp [c5Used, c5Regs, updFn, cnt, List.countP_cons]
      · rw [show c5Used r = none by simp [c5Used, updFn, hr]]
        have : (c5Regs 0 == some r) = false := by
          simp [c5Regs, updFn]
          intro hc
          exact hr hc.symm
        simp [cnt, List.countP_cons, this])
    (by
      intro r
      by_cases hr : r = RegisterID.GeneralPurpose 3
      · subst hr; simp [c5Used, updFn]
      · simp [c5Used, updFn, hr])
    (by intro a ha; simp at ha; subst ha; simp [c5Regs, updFn])
  refine ⟨u, h1, ?_⟩
  have h4 := h2 (.GeneralPurpose 3)
  rw [h4]
  rfl

end Tracc

namespace Tracc

/-- Two optional operand sets that are equal as Rust `HashSet`s: both absent,
or permutations of each other. -/
@[reducible]
def optPerm (o₁ o₂ : Option (List Binding)) : Prop :=
  match o₁, o₂ with
  | none, none => True
  | some l₁, some l₂ => List.Perm l₁ l₂
  | _, _ => False

/-- Pointwise `optPerm` of two φ hint maps. -/
@[reducible]
def phiMapPerm (m₁ m₂ : PhiMap) : Prop := ∀ b, optPerm (m₁ b) (m₂ b)

/-- Allocator states that agree except for the enumeration order of the
φ hint sets. -/
@[reducible]
def stRel (s₁ s₂ : AllocSt) : Prop :=
  s₁.cg = s₂.cg ∧ phiMapPerm s₁.phiNodes s₂.phiNodes ∧
    phiMapPerm s₁.phiEdges s₂.phiEdges

/-- Lift a relation to `Except` results: equal errors, or related values. -/
@[reducible]
def exRel {α : Type} (R : α → α → Prop) :
    Except String α → Except String α → Prop
  | .error e₁, .error e₂ => e₁ = e₂
  | .ok a₁, .ok a₂ => R a₁ a₂
  | _, _ => False

/-- Relation for the per-binding step results. -/
@[reducible]
def stepRel (x y : AllocSt × List Binding × UsedMap) : Prop :=
  stRel x.1 y.1 ∧ x.2.1 = y.2.1 ∧ x.2.2 = y.2.2

/-- Relation for the φ phase results. -/
@[reducible]
def phiOutRel (x y : Option RegisterID × PhiMap × PhiMap) : Prop :=
  x.1 = y.1 ∧ phiMapPerm x.2.1 y.2.1 ∧ phiMapPerm x.2.2 y.2.2

theorem optPerm_refl (o : Option (List Binding)) : optPerm o o := by
  cases o with
  | none => trivial
  | some l => exact List.Perm.refl l

theorem phiMapPerm_refl (m : PhiMap) : phiMapPerm m m := fun b => optPerm_refl (m b)

theorem phiMapPerm_upd {m₁ m₂ : PhiMap} (h : phiMapPerm m₁ m₂) (b : Binding) :
    phiMapPerm (updFn m₁ b none) (updFn m₂ b none) := by
  intro x
  by_cases hx : x = b
  · subst hx; rw [updFn_same, updFn_same]; trivial
  · rw [updFn_other _ _ _ _ hx, updFn_other _ _ _ _ hx]; exact h x

theorem phiNodesPhase_perm {regs : Binding → Option RegisterID}
    {pn₁ pn₂ pe₁ pe₂ : PhiMap} {b : Binding}
    (hn : phiMapPerm pn₁ pn₂) (he : phiMapPerm pe₁ pe₂) :
    exRel phiOutRel (phiNodesPhase regs pn₁ pe₁ b)
      (phiNodesPhase regs pn₂ pe₂ b) := by
  have hb := hn b
  unfold phiNodesPhase
  cases h₁ : pn₁ b with
  | none =>
    cases h₂ : pn₂ b with
    | none => exact ⟨rfl, hn, he⟩
    | some l₂ => rw [h₁, h₂] at hb; exact (show False from hb).elim
  | some l₁ =>
    cases h₂ : pn₂ b with
    | none => rw [h₁, h₂] at hb; exact (show False from hb).elim
    | some l₂ =>
      rw [h₁, h₂] at hb
      have hb' : List.Perm l₁ l₂ := hb
      dsimp only
      have hperm : List.Perm (collectAllocs regs l₁) (collectAllocs regs l₂) :=
        hb'.filterMap regs
      have hlen : (collectAllocs regs l₁).length = (collectAllocs regs l₂).length :=
        hperm.length_eq
      have hnlen : l₁.length = l₂.length := hb'.length_eq
      by_cases hc : (collectAllocs regs l₁).length = l₁.length
      · rw [if_pos hc, if_pos (by rw [← hlen, ← hnlen]; exact hc)]
        have hd : List.Perm ((collectAllocs regs l₁).dedup)
            ((collectAllocs regs l₂).dedup) := hperm.dedup
        cases hd₁ : (collectAllocs regs l₁).dedup with
        | nil =>
          have hd₂ : (collectAllocs regs l₂).dedup = [] := by
            rw [hd₁] at hd
            exact List.Perm.eq_nil hd.symm
          rw [hd₂]
        | cons r t =>
          cases t with
          | nil =>
            have hd₂ : (collectAllocs regs l₂).dedup = [r] := by
              rw [hd₁] at hd
              exact List.perm_singleton.mp hd.symm
            rw [hd₂]
            exact ⟨rfl, phiMapPerm_upd hn b, he⟩
          | cons r' t' =>
            have hlen2 : 2 ≤ (collectAllocs regs l₂).dedup.length := by
              rw [← hd.length_eq, hd₁]
              simp
            cases hd₂ : (collectAllocs regs l₂).dedup with
            | nil => exact rfl
            | cons s t₂ =>
              cases t₂ with
              | nil =>
                rw [hd₂] at hlen2
                exact absurd hlen2 (by rw [List.length_singleton]; decide)
              | cons s' t₂' => exact rfl
      · rw [if_neg hc, if_neg (by rw [← hlen, ← hnlen]; exact hc)]

theorem phiPhase_perm {regs : Binding → Option RegisterID}
    {pn₁ pn₂ pe₁ pe₂ : PhiMap} {b : Binding}
    (hn : phiMapPerm pn₁ pn₂) (he : phiMapPerm pe₁ pe₂) :
    exRel phiOutRel (phiPhase regs pn₁ pe₁ b) (phiPhase regs pn₂ pe₂ b) := by
  have hb := he b
  unfold phiPhase
  cases h₁ : pe₁ b with
  | none =>
    cases h₂ : pe₂ b with
    | none => exact phiNodesPhase_perm hn he
    | some l₂ => rw [h₁, h₂] at hb; exact (show False from hb).elim
  | some l₁ =>
    cases h₂ : pe₂ b with
    | none => rw [h₁, h₂] at hb; exact (show False from hb).elim
    | some l₂ =>
      rw [h₁, h₂] at hb
      have hb' : List.Perm l₁ l₂ := hb
      dsimp only
      have hperm : List.Perm (collectAllocs regs l₁) (collectAllocs regs l₂) :=
        hb'.filterMap regs
      have hd : List.Perm ((collectAllocs regs l₁).dedup)
          ((collectAllocs regs l₂).dedup) := hperm.dedup
      cases hd₁ : (collectAllocs regs l₁).dedup with
      | nil =>
        have hd₂ : (collectAllocs regs l₂).dedup = [] := by
          rw [hd₁] at hd
          exact List.Perm.eq_nil hd.symm
        rw [hd₂]
        exact phiNodesPhase_perm hn (phiMapPerm_upd he b)
      | cons r t =>
        cases t with
        | nil =>
          have hd₂ : (collectAllocs regs l₂).dedup = [r] := by
            rw [hd₁] at hd
            exact List.perm_singleton.mp hd.symm
          rw [hd₂]
          exact ⟨rfl, hn, phiMapPerm_upd he b⟩
        | cons r' t' =>
          have hlen2 : 2 ≤ (collectAllocs regs l₂).dedup.length := by
            rw [← hd.length_eq, hd₁]
            simp
          cases hd₂ : (collectAllocs regs l₂).dedup with
          | nil =>
            rw [hd₂] at hlen2
            exact absurd hlen2 (by decide)
          | cons s t₂ =>
            cases t₂ with
            | nil =>
              rw [hd₂] at hlen2
              exact absurd hlen2 (by rw [List.length_singleton]; decide)
            | cons s' t₂' => exact rfl

end Tracc

namespace Tracc

theorem evictAndCommit_rel {ctx : BlockCtx} {cg : CodegenHints}
    {pn₁ pe₁ pn₂ pe₂ : PhiMap} {oreg : Option RegisterID}
    {active : List Binding} {used : UsedMap} {b : Binding}
    (hn : phiMapPerm pn₁ pn₂) (he : phiMapPerm pe₁ pe₂) :
    exRel stepRel (evictAndCommit ctx cg pn₁ pe₁ oreg active used b)
      (evictAndCommit ctx cg pn₂ pe₂ oreg active used b) := by
  unfold evictAndCommit
  cases hev : evictPhase ctx cg oreg active used b with
  | error e => exact rfl
  | ok q =>
    obtain ⟨found, cg₁, act₁, u₁⟩ := q
    dsimp only
    cases found with
    | some register =>
      dsimp only
      by_cases hu : (u₁ register).isSome
      · rw [if_pos hu, if_pos hu]
      · rw [if_neg hu, if_neg hu]
        exact ⟨⟨rfl, hn, he⟩, rfl, rfl⟩
    | none =>
      dsimp only
      exact ⟨⟨rfl, hn, he⟩, rfl, rfl⟩

theorem commitPhase_rel {ctx : BlockCtx} {cg : CodegenHints}
    {pn₁ pe₁ pn₂ pe₂ : PhiMap} {pa : Option RegisterID}
    {active : List Binding} {used : UsedMap} {b : Binding}
    (hn : phiMapPerm pn₁ pn₂) (he : phiMapPerm pe₁ pe₂) :
    exRel stepRel (commitPhase ctx cg pn₁ pe₁ pa active used b)
      (commitPhase ctx cg pn₂ pe₂ pa active used b) := by
  unfold commitPhase
  cases pa with
  | some r => exact evictAndCommit_rel hn he
  | none =>
    cases hfs : freeSearch cg ctx.utc used b ctx.fi with
    | mk oreg cg₁ => exact evictAndCommit_rel hn he

theorem stepBinding_rel {ctx : BlockCtx} {st₁ st₂ : AllocSt}
    {active : List Binding} {used : UsedMap} {b : Binding}
    (h : stRel st₁ st₂) :
    exRel stepRel (stepBinding ctx st₁ active used b)
      (stepBinding ctx st₂ active used b) := by
  obtain ⟨hcg, hn, he⟩ := h
  unfold stepBinding
  rw [← hcg]
  cases hexp : expireActive st₁.cg.registers ctx.ends (ctx.starts b) active used with
  | error e => exact rfl
  | ok p =>
    obtain ⟨act₁, u₁⟩ := p
    dsimp only
    by_cases hsc : (st₁.cg.stores_condition b).isSome
    · rw [if_pos hsc, if_pos hsc]
      exact ⟨⟨hcg, hn, he⟩, rfl, rfl⟩
    · rw [if_neg hsc, if_neg hsc]
      cases hreg : st₁.cg.registers b with
      | some already =>
        dsimp only
        exact ⟨⟨hcg, hn, he⟩, rfl, rfl⟩
      | none =>
        dsimp only
        have hpp := @phiPhase_perm st₁.cg.registers st₁.phiNodes st₂.phiNodes
          st₁.phiEdges st₂.phiEdges b hn he
        cases hp₁ : phiPhase st₁.cg.registers st₁.phiNodes st₁.phiEdges b with
        | error e₁ =>
          cases hp₂ : phiPhase st₁.cg.registers st₂.phiNodes st₂.phiEdges b with
          | error e₂ =>
            rw [hp₁, hp₂] at hpp
            exact hpp
          | ok q₂ =>
            rw [hp₁, hp₂] at hpp
            exact (show False from hpp).elim
        | ok q₁ =>
          cases hp₂ : phiPhase st₁.cg.registers st₂.phiNodes st₂.phiEdges b with
          | error e₂ =>
            rw [hp₁, hp₂] at hpp
            exact (show False from hpp).elim
          | ok q₂ =>
            obtain ⟨pa₁, pn₁', pe₁'⟩ := q₁
            obtain ⟨pa₂, pn₂', pe₂'⟩ := q₂
            rw [hp₁, hp₂] at hpp
            obtain ⟨hpa, hn', he'⟩ := hpp
            dsimp only at hpa hn' he'
            dsimp only
            rw [← hpa]
            exact commitPhase_rel hn' he'

theorem laGo_rel {ctx : BlockCtx} {l : List Binding} {st₁ st₂ : AllocSt}
    {active : List Binding} {used : UsedMap}
    (h : stRel st₁ st₂) :
    exRel stRel (laGo ctx l st₁ active used) (laGo ctx l st₂ active used) := by
  induction l generalizing st₁ st₂ active used with
  | nil => exact h
  | cons b rest ih =>
    unfold laGo
    have hsr := @stepBinding_rel ctx st₁ st₂ active used b h
    cases h₁ : stepBinding ctx st₁ active used b with
    | error e₁ =>
      cases h₂ : stepBinding ctx st₂ active used b with
      | error e₂ =>
        rw [h₁, h₂] at hsr
        exact hsr
      | ok p₂ =>
        rw [h₁, h₂] at hsr
        exact (show False from hsr).elim
    | ok p₁ =>
      cases h₂ : stepBinding ctx st₂ active used b with
      | error e₂ =>
        rw [h₁, h₂] at hsr
        exact (show False from hsr).elim
      | ok p₂ =>
        obtain ⟨st₁', act₁', u₁'⟩ := p₁
        obtain ⟨st₂', act₂', u₂'⟩ := p₂
        rw [h₁, h₂] at hsr
        obtain ⟨hst, hact, hu⟩ := hsr
        dsimp only
        dsimp only at hact hu
        rw [← hact, ← hu]
        exact ih hst

theorem stepBlock_rel {ir : IR} {utc : List Binding} {st₁ st₂ : AllocSt}
    {bl : BlockLifetimes} (h : stRel st₁ st₂) :
    exRel stRel (stepBlock ir utc st₁ bl) (stepBlock ir utc st₂ bl) := by
  unfold stepBlock
  cases hfi : findFuncIdx ir.function_endpoints ir.function_entrypoints
      bl.block_index 0 with
  | error e => exact rfl
  | ok fi => exact laGo_rel h

theorem blocksFold_rel {ir : IR} {utc : List Binding} {ls : List BlockLifetimes}
    {st₁ st₂ : AllocSt} (h : stRel st₁ st₂) :
    exRel stRel (ls.foldlM (stepBlock ir utc) st₁)
      (ls.foldlM (stepBlock ir utc) st₂) := by
  induction ls generalizing st₁ st₂ with
  | nil => exact h
  | cons bl rest ih =>
    have hsb := @stepBlock_rel ir utc st₁ st₂ bl h
    show exRel stRel
      (stepBlock ir utc st₁ bl >>= fun s => List.foldlM (stepBlock ir utc) s rest)
      (stepBlock ir utc st₂ bl >>= fun s => List.foldlM (stepBlock ir utc) s rest)
    cases h₁ : stepBlock ir utc st₁ bl with
    | error e₁ =>
      cases h₂ : stepBlock ir utc st₂ bl with
      | error e₂ =>
        rw [h₁, h₂] at hsb
        exact hsb
      | ok s₂ =>
        rw [h₁, h₂] at hsb
        exact (show False from hsb).elim
    | ok s₁ =>
      cases h₂ : stepBlock ir utc st₂ bl with
      | error e₂ =>
        rw [h₁, h₂] at hsb
        exact (show False from hsb).elim
      | ok s₂ =>
        rw [h₁, h₂] at hsb
        exact ih hsb

end Tracc

namespace Tracc

theorem extendNeedMove_not_mem {nm : Binding → Bool} {rfc utc : List Binding}
    {b : Binding} (hb : b ∉ rfc) : extendNeedMove nm rfc utc b = nm b := by
  induction rfc generalizing nm with
  | nil => rfl
  | cons a rest ih =>
    have hba : b ≠ a := fun h => hb (h ▸ List.mem_cons_self a rest)
    have hbr : b ∉ rest := fun h => hb (List.mem_cons_of_mem a h)
    unfold extendNeedMove at ih ⊢
    rw [List.foldl_cons]
    by_cases ha : a ∈ utc
    · rw [if_pos ha, ih hbr]
      unfold setTrue
      rw [if_neg hba]
    · rw [if_neg ha]
      exact ih hbr

theorem extendNeedMove_not_utc {nm : Binding → Bool} {rfc utc : List Binding}
    {b : Binding} (hb : b ∉ utc) : extendNeedMove nm rfc utc b = nm b := by
  induction rfc generalizing nm with
  | nil => rfl
  | cons a rest ih =>
    unfold extendNeedMove at ih ⊢
    rw [List.foldl_cons]
    by_cases ha : a ∈ utc
    · rw [if_pos ha, ih]
      have hba : b ≠ a := fun h => hb (h ▸ ha)
      unfold setTrue
      rw [if_neg hba]
    · rw [if_neg ha]
      exact ih

theorem extendNeedMove_perm (nm : Binding → Bool) (utc : List Binding)
    {rfc₁ rfc₂ : List Binding} (hperm : List.Perm rfc₁ rfc₂) :
    extendNeedMove nm rfc₁ utc = extendNeedMove nm rfc₂ utc := by
  funext b
  by_cases hu : b ∈ utc
  · by_cases hm : b ∈ rfc₁
    · rw [extendNeedMove_true_of hm hu,
        extendNeedMove_true_of (hperm.mem_iff.mp hm) hu]
    · rw [extendNeedMove_not_mem hm,
        extendNeedMove_not_mem (fun h => hm (hperm.mem_iff.mpr h))]
  · rw [extendNeedMove_not_utc hu, extendNeedMove_not_utc hu]

theorem prepinRegisters_mem_utc {regs : Binding → Option RegisterID}
    {rfc utc : List Binding} {b : Binding} (hb : b ∈ utc) :
    prepinRegisters regs rfc utc b = regs b := by
  induction rfc generalizing regs with
  | nil => rfl
  | cons a rest ih =>
    unfold prepinRegisters at ih ⊢
    rw [List.foldl_cons]
    by_cases ha : a ∈ utc
    · rw [if_pos ha]
      exact ih
    · rw [if_neg ha]
      have hba : b ≠ a := fun h => ha (h ▸ hb)
      rw [ih, updFn_other _ _ _ _ hba]

theorem prepinRegisters_perm (regs : Binding → Option RegisterID)
    (utc : List Binding) {rfc₁ rfc₂ : List Binding}
    (hperm : List.Perm rfc₁ rfc₂) :
    prepinRegisters regs rfc₁ utc = prepinRegisters regs rfc₂ utc := by
  funext b
  by_cases hu : b ∈ utc
  · rw [prepinRegisters_mem_utc hu, prepinRegisters_mem_utc hu]
  · by_cases hm : b ∈ rfc₁
    · rw [prepinRegisters_mem hm hu, prepinRegisters_mem (hperm.mem_iff.mp hm) hu]
    · rw [prepinRegisters_not_mem hm,
        prepinRegisters_not_mem (fun h => hm (hperm.mem_iff.mpr h))]

theorem initialAllocSt_rel {ir : IR} {h₁ h₂ : AllocatorHints}
    (hrfc : List.Perm h₁.returned_from_call h₂.returned_from_call)
    (hfpn : phiMapPerm h₁.from_phi_node h₂.from_phi_node)
    (hipn : phiMapPerm h₁.is_phi_node_with h₂.is_phi_node_with) :
    stRel (initialAllocSt ir h₁) (initialAllocSt ir h₂) := by
  refine ⟨?_, hfpn, hipn⟩
  unfold initialAllocSt
  dsimp only
  rw [prepinRegisters_perm CodegenHints.empty.registers (usedThroughCallList ir) hrfc]

theorem finishAlloc_congr {utc : List Binding} {rfc₁ rfc₂ : List Binding}
    {st₁ st₂ : AllocSt} (hcg : st₁.cg = st₂.cg)
    (hperm : List.Perm rfc₁ rfc₂) :
    finishAlloc rfc₁ utc st₁ = finishAlloc rfc₂ utc st₂ := by
  unfold finishAlloc
  rw [hcg, extendNeedMove_perm _ utc hperm]

/-- C9: determinism of `alloc_registers`.  The only inputs whose enumeration
order a Rust `HashSet`/`HashMap` leaves unspecified are embedded as lists
(the hint sets) and as list-valued maps (the φ hint sets); for any two hint
records that are equal as sets — fieldwise permutations, φ maps pointwise —
the allocator produces identical `CodegenHints`, and identical errors when
it fails. -/
theorem c9_allocator_deterministic (ir : IR) (na : List Binding)
    (h₁ h₂ : AllocatorHints)
    (_him : List.Perm h₁.in_memory h₂.in_memory)
    (_hur : List.Perm h₁.used_in_return h₂.used_in_return)
    (hrfc : List.Perm h₁.returned_from_call h₂.returned_from_call)
    (hfpn : phiMapPerm h₁.from_phi_node h₂.from_phi_node)
    (hipn : phiMapPerm h₁.is_phi_node_with h₂.is_phi_node_with)
    (_hz : List.Perm h₁.zeroes h₂.zeroes) :
    allocRegisters ir na h₁ = allocRegisters ir na h₂ := by
  unfold allocRegisters
  dsimp only
  have hrel := @blocksFold_rel ir (usedThroughCallList ir) (makeSortedLifetimes ir)
    (initialAllocSt ir h₁) (initialAllocSt ir h₂)
    (@initialAllocSt_rel ir h₁ h₂ hrfc hfpn hipn)
  cases hF₁ : List.foldlM (stepBlock ir (usedThroughCallList ir))
      (initialAllocSt ir h₁) (makeSortedLifetimes ir) with
  | error e₁ =>
    cases hF₂ : List.foldlM (stepBlock ir (usedThroughCallList ir))
        (initialAllocSt ir h₂) (makeSortedLifetimes ir) with
    | error e₂ =>
      rw [hF₁, hF₂] at hrel
      rw [show e₁ = e₂ from hrel]
    | ok s₂ =>
      rw [hF₁, hF₂] at hrel
      exact (show False from hrel).elim
  | ok s₁ =>
    cases hF₂ : List.foldlM (stepBlock ir (usedThroughCallList ir))
        (initialAllocSt ir h₂) (makeSortedLifetimes ir) with
    | error e₂ =>
      rw [hF₁, hF₂] at hrel
      exact (show False from hrel).elim
    | ok s₂ =>
      rw [hF₁, hF₂] at hrel
      dsimp only
      rw [finishAlloc_congr (show s₁.cg = s₂.cg from hrel.1) hrfc]

/-- C9 (witness): the theorem applied at a concrete input — reversing the
enumeration order of the `returned_from_call` hint set leaves the output of
the allocator on `irC4w` unchanged. -/
theorem c9_allocator_deterministic_witness :
    allocRegisters irC4w [] (makeAllocatorHints irC4w)
      = allocRegisters irC4w []
          { makeAllocatorHints irC4w with
            returned_from_call :=
              (makeAllocatorHints irC4w).returned_from_call.reverse } :=
  c9_allocator_deterministic irC4w [] _ _
    (List.Perm.refl _) (List.Perm.refl _) (List.reverse_perm _).symm
    (phiMapPerm_refl _) (phiMapPerm_refl _) (List.Perm.refl _)

end Tracc
